import Mathlib

/-!
Verification development for the Anaphones program (`anaphones.py`).

The program is shallowly embedded: Python strings become `List Char`,
Python dicts (which preserve insertion order) become association lists
with insert-or-update semantics, and fallible code returns `Except`.
Python's Unicode `str.isalpha` classifier is kept abstract: every
definition and theorem is parameterized by an arbitrary classifier
`isalpha : Char → Bool`, so the results hold for the real classifier;
the documented facts about concrete characters that proofs need
(for instance that `/` and `:` are not alphabetic) appear as explicit
hypotheses.
-/

namespace Anaphones

/-- A Python string, as its list of characters. -/
abbrev Str := List Char

/-- The explicit exclusion set of `clean_str_to_alphanum`:
primary/secondary stress marks, period, hyphen, double quote, single
quote (the last two written via their code points). -/
def excludedChars : Str := ['ˈ', 'ˌ', '.', '-', Char.ofNat 34, Char.ofNat 39]

/-- The character filter used by `clean_str_to_alphanum`: keep `c` iff
`c.isalpha()` holds and `c` is not in the exclusion set. -/
def keepChar (isalpha : Char → Bool) (c : Char) : Bool :=
  isalpha c && !(excludedChars.contains c)

/-- `clean_str_to_alphanum` from the source: keep only the characters
that are alphabetic and not in the exclusion set. -/
def clean_str_to_alphanum (isalpha : Char → Bool) (w : Str) : Str :=
  w.filter (keepChar isalpha)

/-- Python's `str.strip('/')`: remove leading and trailing `/`. -/
def stripSlashes (w : Str) : Str :=
  ((w.dropWhile (fun c => c == '/')).reverse.dropWhile (fun c => c == '/')).reverse

/-- `normalize_pronunciation` from the source. -/
def normalize_pronunciation (isalpha : Char → Bool) (w : Str) : Str :=
  clean_str_to_alphanum isalpha (stripSlashes w)

/-- `sorted_str` from the source: the characters sorted ascending. -/
def sorted_str (w : Str) : Str :=
  List.insertionSort (fun a b => a ≤ b) w

/-- The `Spelling` value type: a wrapper around a (normalized) string.
Equality and hashing are on the wrapped string, as with `attr.s`. -/
structure Spelling where
  s : Str
deriving DecidableEq, Repr

/-- Constructing a `Spelling` applies the `clean_str_to_alphanum`
converter, as in the `attr.ib(converter=...)` declaration. -/
def Spelling.ofRaw (isalpha : Char → Bool) (raw : Str) : Spelling :=
  ⟨clean_str_to_alphanum isalpha raw⟩

/-- `Spelling.sorted` from the source. -/
def Spelling.sorted (isalpha : Char → Bool) (x : Spelling) : Spelling :=
  Spelling.ofRaw isalpha (sorted_str x.s)

/-- `Spelling.is_anagram_of` from the source. -/
def Spelling.is_anagram_of (isalpha : Char → Bool) (a b : Spelling) : Bool :=
  decide (a.sorted isalpha = b.sorted isalpha)

/-- The `Pronunciation` value type. -/
structure Pronunciation where
  s : Str
deriving DecidableEq, Repr

/-- Constructing a `Pronunciation` applies the `normalize_pronunciation`
converter. -/
def Pronunciation.ofRaw (isalpha : Char → Bool) (raw : Str) : Pronunciation :=
  ⟨normalize_pronunciation isalpha raw⟩

/-- `Pronunciation.sorted` from the source. -/
def Pronunciation.sorted (isalpha : Char → Bool) (p : Pronunciation) : Pronunciation :=
  Pronunciation.ofRaw isalpha (sorted_str p.s)

/-- `Pronunciation.is_anagram_of` from the source. -/
def Pronunciation.is_anagram_of (isalpha : Char → Bool) (a b : Pronunciation) : Bool :=
  decide (a.sorted isalpha = b.sorted isalpha)

/-- The `PronouncedWord` value type: a (Spelling, Pronunciation) pair. -/
structure PronouncedWord where
  spelling : Spelling
  pronunciation : Pronunciation
deriving DecidableEq, Repr

/-- `PronouncedWord.json_safe_str` from the source: the composite key
`"<spelling>:<pronunciation>"`. -/
def PronouncedWord.json_safe_str (w : PronouncedWord) : Str :=
  w.spelling.s ++ ':' :: w.pronunciation.s

/-- `deduplicate_pronunciations`, with the `seen_pronunciations` set
modelled as the list of pronunciations added so far (only membership
is used). -/
def dedupGo (seen : List Pronunciation) : List PronouncedWord → List PronouncedWord
  | [] => []
  | w :: ws =>
    if w.pronunciation ∈ seen then dedupGo seen ws
    else w :: dedupGo (w.pronunciation :: seen) ws

/-- `deduplicate_pronunciations` from the source: scan the list in
order, keeping a word only if its pronunciation has not been seen. -/
def deduplicate_pronunciations (words : List PronouncedWord) : List PronouncedWord :=
  dedupGo [] words

/-- Lookup in an insertion-ordered association list (a Python dict). -/
def dictLookup {κ V : Type} [DecidableEq κ] : List (κ × V) → κ → Option V
  | [], _ => none
  | (k, v) :: rest, q => if k = q then some v else dictLookup rest q

/-- `d[k] = v` on a Python dict: update the value in place if the key
is present, otherwise append the new pair at the end. -/
def dictSet {κ V : Type} [DecidableEq κ] : List (κ × V) → κ → V → List (κ × V)
  | [], k, v => [(k, v)]
  | (kd, vd) :: rest, k, v =>
    if kd = k then (kd, v) :: rest else (kd, vd) :: dictSet rest k v

/-- `d[k].append(v)` on a `defaultdict(list)`: append to the existing
group, or create a singleton group at the end. -/
def dictAppend {κ V : Type} [DecidableEq κ] : List (κ × List V) → κ → V → List (κ × List V)
  | [], k, v => [(k, [v])]
  | (kd, l) :: rest, k, v =>
    if kd = k then (kd, l ++ [v]) :: rest else (kd, l) :: dictAppend rest k v

/-- The concatenation of all group lists of a grouping dict. -/
def joinGroups {κ V : Type} : List (κ × List V) → List V
  | [] => []
  | (_, l) :: rest => l ++ joinGroups rest

/-- The grouping loop of `find_anagrams`: one pass over the items,
appending each item to the group of its key. -/
def groupByKey {α κ : Type} [DecidableEq κ] (f : α → κ) :
    List α → List (κ × List α) → List (κ × List α)
  | [], acc => acc
  | w :: ws, acc => groupByKey f ws (dictAppend acc (f w) w)

/-- The final dict comprehension of `find_anagrams`:
`{Pronunciation(letters): word_list for letters, word_list in d.items()}`.
Built with dict-assignment semantics, so distinct string keys whose
normalizations coincide collapse (the later value overwrites). -/
def wrapKeys {α : Type} (isalpha : Char → Bool) (d : List (Str × List α)) :
    List (Pronunciation × List α) :=
  d.foldl (fun m kv => dictSet m (Pronunciation.ofRaw isalpha kv.1) kv.2) []

/-- `find_anagrams` from the source, specialized to the case where a
key extractor is supplied (`key is not None`), generic in the item
type as in the source. -/
def find_anagrams {α : Type} (isalpha : Char → Bool) (key : α → Str) (items : List α) :
    List (Pronunciation × List α) :=
  wrapKeys isalpha (groupByKey (fun w => sorted_str (key w)) items [])

/-- A dynamically typed Python object passed to `find_anagrams` when no
key extractor is given: either a string or some non-string object. -/
inductive PyObj where
  | ofStr : Str → PyObj
  | other : Nat → PyObj
deriving DecidableEq, Repr

/-- Whether a `PyObj` is a string (`isinstance(w, str)`). -/
def PyObj.isStr : PyObj → Bool
  | .ofStr _ => true
  | .other _ => false

/-- The grouping loop of `find_anagrams` over dynamically typed items
with an optional key extractor, as in the source: with no extractor, a
non-string item raises `TypeError` (modelled as `Except.error ()`). -/
def groupPy (okey : Option (PyObj → Str)) :
    List PyObj → List (Str × List PyObj) → Except Unit (List (Str × List PyObj))
  | [], acc => .ok acc
  | w :: ws, acc =>
    match okey with
    | some k => groupPy okey ws (dictAppend acc (sorted_str (k w)) w)
    | none =>
      match w with
      | .ofStr s => groupPy okey ws (dictAppend acc (sorted_str s) w)
      | .other _ => .error ()

/-- `find_anagrams` from the source in its dynamically typed form with
an optional key extractor. -/
def find_anagrams_py (isalpha : Char → Bool) (okey : Option (PyObj → Str))
    (items : List PyObj) : Except Unit (List (Pronunciation × List PyObj)) :=
  (groupPy okey items []).map (wrapKeys isalpha)

/-- An `IPADict`: the insertion-ordered mapping from `Spelling` to the
list of its `Pronunciation` variants. -/
abbrev IPADict := List (Spelling × List Pronunciation)

/-- `IPADict.flatten_to_pronounced_words` from the source: one
`PronouncedWord` per (spelling, pronunciation-variant) pair, in
spelling-then-variant order. -/
def flatten_to_pronounced_words : IPADict → List PronouncedWord
  | [] => []
  | (sp, ps) :: rest => ps.map (fun p => ⟨sp, p⟩) ++ flatten_to_pronounced_words rest

/-- A minimal model of the JSON values relevant to `IPADict.from_file`. -/
inductive PyJson where
  | jstr : Str → PyJson
  | jlist : List PyJson → PyJson
  | jobj : List (Str × PyJson) → PyJson

/-- Extract the entries of the per-language object when every value is
a string, as required by `v.split(', ')`. -/
def asStrEntries : List (Str × PyJson) → Option (List (Str × Str))
  | [] => some []
  | (k, PyJson.jstr v) :: rest => (asStrEntries rest).map (fun es => (k, v) :: es)
  | _ => none

/-- Python's `str.split(', ')`, specialized to the fixed separator. -/
def split_comma_space : Str → List Str
  | [] => [[]]
  | ',' :: ' ' :: rest => [] :: split_comma_space rest
  | c :: rest =>
    match split_comma_space rest with
    | [] => [[c]]
    | t :: ts => (c :: t) :: ts

/-- First-occurrence deduplication, used to model `list(set(...))`.
Python's set iteration order is unspecified (though deterministic
within a run); this model fixes first-occurrence order, and no theorem
below depends on the order, only on the members. -/
def dedupKeepFirst {α : Type} [DecidableEq α] (seen : List α) : List α → List α
  | [] => []
  | x :: xs =>
    if x ∈ seen then dedupKeepFirst seen xs
    else x :: dedupKeepFirst (x :: seen) xs

/-- `list(set(l))` for the purposes of this development. -/
def pySetList {α : Type} [DecidableEq α] (l : List α) : List α :=
  dedupKeepFirst [] l

/-- The pronunciation list built for one spelling entry on load:
`list(set(Pronunciation(x) for x in v.split(', ')))`. -/
def pronListOf (isalpha : Char → Bool) (v : Str) : List Pronunciation :=
  pySetList ((split_comma_space v).map (Pronunciation.ofRaw isalpha))

/-- The dict comprehension of `IPADict.from_file`: raw spellings that
normalize to the same `Spelling` collapse, the later entry's value
overwriting the earlier one's. -/
def buildIPA (isalpha : Char → Bool) (entries : List (Str × Str)) : IPADict :=
  entries.foldl (fun m kv => dictSet m (Spelling.ofRaw isalpha kv.1) (pronListOf isalpha kv.2)) []

/-- The error kinds of `IPADict.from_file`: `lookupError` for a missing
language key (`KeyError`), `formatError` for a per-language value that
is not exactly one string-valued mapping object (`ValueError` /
`TypeError` / `AttributeError` on unpacking or `.items()` / `.split`). -/
inductive LoadError where
  | lookupError
  | formatError
deriving DecidableEq, Repr

/-- The `(d,) = ...` unpacking plus dict comprehension of
`IPADict.from_file`: the per-language value must be a one-element array
holding one object with string values; any other shape raises a
`FormatError`-kind error. -/
def parseLangValue (isalpha : Char → Bool) (v : PyJson) : Except LoadError IPADict :=
  match v with
  | PyJson.jlist [PyJson.jobj entries] =>
    match asStrEntries entries with
    | some es => .ok (buildIPA isalpha es)
    | none => .error .formatError
  | _ => .error .formatError

/-- `IPADict.from_file` from the source, applied to the already parsed
top-level JSON object. -/
def IPADict.from_file (isalpha : Char → Bool) (top : List (Str × PyJson))
    (language : Str) : Except LoadError IPADict :=
  match dictLookup top language with
  | none => .error .lookupError
  | some v => parseLangValue isalpha v

/-- The `PhoneticAnagramDict`: sorted-pronunciation key to group. -/
abbrev PhoneticAnagramDict := List (Pronunciation × List PronouncedWord)

/-- `PhoneticAnagramDict.from_IPADict` from the source: flatten, then
group by the raw pronunciation string.  The constructor call
`PhoneticAnagramDict(phonetic_anagrams)` wraps the result unchanged. -/
def PhoneticAnagramDict.from_IPADict (isalpha : Char → Bool) (d : IPADict) :
    PhoneticAnagramDict :=
  find_anagrams isalpha (fun w => w.pronunciation.s) (flatten_to_pronounced_words d)

/-- `PhoneticAnagramDict.__getitem__` on a `Pronunciation` query: sort
the query first, then look it up; a missing key raises `KeyError`,
modelled as `none`. -/
def PhoneticAnagramDict.getitemP (isalpha : Char → Bool) (pad : PhoneticAnagramDict)
    (p : Pronunciation) : Option (List PronouncedWord) :=
  dictLookup pad (p.sorted isalpha)

/-- `', '.join` of a list of strings. -/
def joinCS (l : List Str) : Str :=
  List.intercalate [',', ' '] l

/-- The three report dictionaries built by `main`. -/
structure Reports where
  a : List (Str × Str)
  b : List (Str × Str)
  c : List (Str × Str)
deriving DecidableEq, Repr

/-- One iteration of the report loop of `main`, given the group `anas`
found for the current word. -/
def updateReports (r : Reports) (w : PronouncedWord) (anas : List PronouncedWord) : Reports :=
  let key_str := w.json_safe_str
  let a2 := dictSet r.a key_str (joinCS (anas.map PronouncedWord.json_safe_str))
  let uniq := deduplicate_pronunciations anas
  let joined := joinCS (uniq.map PronouncedWord.json_safe_str)
  { a := a2
    b := dictSet r.b key_str joined
    c := if 1 < uniq.length then dictSet r.c key_str joined else r.c }

/-- The report loop of `main`: for each flattened word, look up its
group (a failed lookup raises, modelled as `Except.error ()`) and
update the three reports. -/
def runReports (isalpha : Char → Bool) (pad : PhoneticAnagramDict) (r : Reports) :
    List PronouncedWord → Except Unit Reports
  | [] => .ok r
  | w :: ws =>
    match PhoneticAnagramDict.getitemP isalpha pad w.pronunciation with
    | none => .error ()
    | some anas => runReports isalpha pad (updateReports r w anas) ws

/-- The report-building part of `main`, from an already loaded
`IPADict`. -/
def buildReports (isalpha : Char → Bool) (d : IPADict) : Except Unit Reports :=
  runReports isalpha (PhoneticAnagramDict.from_IPADict isalpha d) ⟨[], [], []⟩
    (flatten_to_pronounced_words d)

/-- The phonetic-anagram group of `w` in the flattened word list:
all flattened words whose pronunciation sorts to the same string. -/
def groupOf (d : IPADict) (w : PronouncedWord) : List PronouncedWord :=
  (flatten_to_pronounced_words d).filter
    (fun v => decide (sorted_str v.pronunciation.s = sorted_str w.pronunciation.s))

/-- A well-formed `IPADict`: every stored value was built through the
converters, so it is a fixed point of its normalization. -/
def IPADict.wellFormed (isalpha : Char → Bool) (d : IPADict) : Prop :=
  ∀ e ∈ d, clean_str_to_alphanum isalpha e.1.s = e.1.s ∧
    ∀ p ∈ e.2, normalize_pronunciation isalpha p.s = p.s

instance wellFormed_decidable (isalpha : Char → Bool) (d : IPADict) :
    Decidable (IPADict.wellFormed isalpha d) :=
  inferInstanceAs (Decidable (∀ e ∈ d, clean_str_to_alphanum isalpha e.1.s = e.1.s ∧
    ∀ p ∈ e.2, normalize_pronunciation isalpha p.s = p.s))

/-- Modelled from the spec: "scanning `G` in order, keep the first
occurrence of each distinct pronunciation, drop later ones" — the
specification's description of Report B's deduplication, stated as a
recursive definition to be compared with `deduplicate_pronunciations`. -/
def keepFirstByPron : List PronouncedWord → List PronouncedWord
  | [] => []
  | w :: ws =>
    w :: keepFirstByPron (ws.filter (fun v => decide (v.pronunciation ≠ w.pronunciation)))
termination_by l => l.length
decreasing_by
  simp only [List.length_cons]
  exact Nat.lt_succ_of_le (List.length_filter_le _ _)

/-! ### Association-list (Python dict) lemmas -/

/-- The keys of an association list, in order. -/
def dictKeys {κ V : Type} (d : List (κ × V)) : List κ :=
  d.map Prod.fst

theorem dictKeys_nil {κ V : Type} : dictKeys ([] : List (κ × V)) = [] := rfl

theorem dictKeys_cons {κ V : Type} (e : κ × V) (rest : List (κ × V)) :
    dictKeys (e :: rest) = e.1 :: dictKeys rest := rfl

theorem dictLookup_eq_none_iff {κ V : Type} [DecidableEq κ] (m : List (κ × V)) (q : κ) :
    dictLookup m q = none ↔ q ∉ dictKeys m := by
  induction m with
  | nil => simp [dictLookup, dictKeys_nil]
  | cons e rest ih =>
    obtain ⟨k, v⟩ := e
    by_cases h : k = q
    · subst h; simp [dictLookup, dictKeys_cons]
    · simp [dictLookup, dictKeys_cons, h, Ne.symm h, ih]

theorem dictLookup_dictSet_self {κ V : Type} [DecidableEq κ] (m : List (κ × V)) (k : κ) (v : V) :
    dictLookup (dictSet m k v) k = some v := by
  induction m with
  | nil => simp [dictSet, dictLookup]
  | cons e rest ih =>
    obtain ⟨kd, vd⟩ := e
    by_cases h : kd = k <;> simp [dictSet, dictLookup, h, ih]

theorem dictLookup_dictSet_ne {κ V : Type} [DecidableEq κ] (m : List (κ × V)) (k q : κ) (v : V)
    (h : k ≠ q) : dictLookup (dictSet m k v) q = dictLookup m q := by
  induction m with
  | nil => simp [dictSet, dictLookup, h]
  | cons e rest ih =>
    obtain ⟨kd, vd⟩ := e
    by_cases hd : kd = k
    · subst hd; simp [dictSet, dictLookup, h, Ne.symm h, ih]
    · by_cases hq : kd = q <;> simp [dictSet, dictLookup, hd, hq, Ne.symm h, ih]

theorem dictSet_eq_append {κ V : Type} [DecidableEq κ] (m : List (κ × V)) (k : κ) (v : V)
    (h : k ∉ dictKeys m) : dictSet m k v = m ++ [(k, v)] := by
  induction m with
  | nil => simp [dictSet]
  | cons e rest ih =>
    obtain ⟨kd, vd⟩ := e
    simp [dictKeys] at h
    simp [dictSet, Ne.symm h.1, ih (by simp [dictKeys, h.2])]

theorem dictLookup_dictAppend_self {κ V : Type} [DecidableEq κ] (d : List (κ × List V))
    (k : κ) (v : V) :
    dictLookup (dictAppend d k v) k = some ((dictLookup d k).getD [] ++ [v]) := by
  induction d with
  | nil => simp [dictAppend, dictLookup]
  | cons e rest ih =>
    obtain ⟨kd, l⟩ := e
    by_cases h : kd = k <;> simp [dictAppend, dictLookup, h, ih]

theorem dictLookup_dictAppend_ne {κ V : Type} [DecidableEq κ] (d : List (κ × List V))
    (k q : κ) (v : V) (h : k ≠ q) :
    dictLookup (dictAppend d k v) q = dictLookup d q := by
  induction d with
  | nil => simp [dictAppend, dictLookup, h]
  | cons e rest ih =>
    obtain ⟨kd, l⟩ := e
    by_cases hd : kd = k
    · subst hd; simp [dictAppend, dictLookup, h, Ne.symm h, ih]
    · by_cases hq : kd = q <;> simp [dictAppend, dictLookup, hd, hq, Ne.symm h, ih]

theorem dictKeys_dictAppend {κ V : Type} [DecidableEq κ] (d : List (κ × List V)) (k : κ) (v : V) :
    dictKeys (dictAppend d k v) = if k ∈ dictKeys d then dictKeys d else dictKeys d ++ [k] := by
  induction d with
  | nil => simp [dictAppend, dictKeys_nil, dictKeys_cons]
  | cons e rest ih =>
    obtain ⟨kd, l⟩ := e
    by_cases h : kd = k
    · subst h; simp [dictAppend, dictKeys_cons]
    · by_cases hm : k ∈ dictKeys rest <;>
        simp [dictAppend, h, Ne.symm h, hm, dictKeys_cons, ih, List.mem_cons]

theorem joinGroups_dictAppend {κ V : Type} [DecidableEq κ] (d : List (κ × List V))
    (k : κ) (v : V) :
    List.Perm (joinGroups (dictAppend d k v)) (joinGroups d ++ [v]) := by
  induction d with
  | nil => simp [dictAppend, joinGroups]
  | cons e rest ih =>
    obtain ⟨kd, l⟩ := e
    by_cases h : kd = k
    · subst h
      simp only [dictAppend, if_pos rfl, joinGroups, List.append_assoc]
      exact (List.Perm.refl _).append (List.perm_append_comm)
    · simp only [dictAppend, if_neg h, joinGroups, List.append_assoc]
      exact (List.Perm.refl l).append ih

/-! ### Grouping-loop lemmas -/

theorem groupByKey_lookup {α κ : Type} [DecidableEq α] [DecidableEq κ] (f : α → κ) (items : List α)
    (acc : List (κ × List α)) (k : κ) :
    dictLookup (groupByKey f items acc) k =
      match dictLookup acc k with
      | some l => some (l ++ items.filter (fun w => decide (f w = k)))
      | none =>
        if items.filter (fun w => decide (f w = k)) = [] then none
        else some (items.filter (fun w => decide (f w = k))) := by
  induction items generalizing acc with
  | nil => cases h : dictLookup acc k <;> simp [groupByKey, h]
  | cons w ws ih =>
    by_cases hw : f w = k
    · subst hw
      rw [groupByKey, ih]
      rw [dictLookup_dictAppend_self]
      cases h : dictLookup acc (f w) <;> simp [h, List.filter_cons]
    · rw [groupByKey, ih, dictLookup_dictAppend_ne _ _ _ _ hw]
      cases h : dictLookup acc k <;> simp [h, List.filter_cons, hw]

theorem groupByKey_lookup_nil {α κ : Type} [DecidableEq α] [DecidableEq κ] (f : α → κ) (items : List α) (k : κ) :
    dictLookup (groupByKey f items []) k =
      if items.filter (fun w => decide (f w = k)) = [] then none
      else some (items.filter (fun w => decide (f w = k))) := by
  rw [groupByKey_lookup]
  rfl

theorem joinGroups_groupByKey {α κ : Type} [DecidableEq κ] (f : α → κ) (items : List α)
    (acc : List (κ × List α)) :
    List.Perm (joinGroups (groupByKey f items acc)) (joinGroups acc ++ items) := by
  induction items generalizing acc with
  | nil => simp [groupByKey]
  | cons w ws ih =>
    rw [groupByKey]
    refine (ih _).trans ?_
    have h1 : List.Perm (joinGroups (dictAppend acc (f w) w) ++ ws)
        ((joinGroups acc ++ [w]) ++ ws) :=
      (joinGroups_dictAppend acc (f w) w).append_right ws
    refine h1.trans ?_
    rw [List.append_assoc]
    exact List.Perm.refl _

theorem dictKeys_groupByKey_subset {α κ : Type} [DecidableEq κ] (f : α → κ) (items : List α)
    (acc : List (κ × List α)) (k : κ) (h : k ∈ dictKeys (groupByKey f items acc)) :
    k ∈ dictKeys acc ∨ ∃ w ∈ items, f w = k := by
  induction items generalizing acc with
  | nil => exact Or.inl h
  | cons w ws ih =>
    rw [groupByKey] at h
    rcases ih _ h with h1 | h1
    · rw [dictKeys_dictAppend] at h1
      by_cases hm : f w ∈ dictKeys acc
      · rw [if_pos hm] at h1; exact Or.inl h1
      · rw [if_neg hm] at h1
        rcases List.mem_append.mp h1 with h2 | h2
        · exact Or.inl h2
        · simp at h2; exact Or.inr ⟨w, by simp [h2]⟩
    · obtain ⟨x, hx, hfx⟩ := h1
      exact Or.inr ⟨x, by simp [hx], hfx⟩

theorem dictKeys_groupByKey_nodup {α κ : Type} [DecidableEq κ] (f : α → κ) (items : List α)
    (acc : List (κ × List α)) (h : (dictKeys acc).Nodup) :
    (dictKeys (groupByKey f items acc)).Nodup := by
  induction items generalizing acc with
  | nil => exact h
  | cons w ws ih =>
    rw [groupByKey]
    refine ih _ ?_
    rw [dictKeys_dictAppend]
    by_cases hm : f w ∈ dictKeys acc
    · rwa [if_pos hm]
    · rw [if_neg hm]
      simpa [List.nodup_append] using ⟨h, hm⟩

/-! ### Normalization lemmas -/

theorem keepChar_of_clean_fix {isalpha : Char → Bool} {s : Str}
    (h : clean_str_to_alphanum isalpha s = s) : ∀ c ∈ s, keepChar isalpha c = true := by
  intro c hc
  rw [← h] at hc
  exact (List.mem_filter.mp hc).2

theorem keepChar_of_norm_fix {isalpha : Char → Bool} {s : Str}
    (h : normalize_pronunciation isalpha s = s) : ∀ c ∈ s, keepChar isalpha c = true := by
  intro c hc
  rw [← h] at hc
  exact (List.mem_filter.mp hc).2

theorem clean_eq_self_of_all_keep {isalpha : Char → Bool} {s : Str}
    (h : ∀ c ∈ s, keepChar isalpha c = true) : clean_str_to_alphanum isalpha s = s :=
  List.filter_eq_self.mpr h

theorem no_slash_of_all_keep {isalpha : Char → Bool} {s : Str} (hs : isalpha '/' = false)
    (h : ∀ c ∈ s, keepChar isalpha c = true) : '/' ∉ s := by
  intro hm
  have := h _ hm
  simp [keepChar, hs] at this

theorem dropSlash_eq_self (s : Str) (h : '/' ∉ s) :
    s.dropWhile (fun c => c == '/') = s := by
  cases s with
  | nil => rfl
  | cons c t =>
    have hne : c ≠ '/' := fun e => h (e ▸ List.mem_cons_self c t)
    simp [List.dropWhile_cons, beq_iff_eq, hne]

theorem stripSlashes_eq_self {s : Str} (h : '/' ∉ s) : stripSlashes s = s := by
  unfold stripSlashes
  rw [dropSlash_eq_self s h, dropSlash_eq_self _ (by simpa using h), List.reverse_reverse]

theorem sorted_str_perm (s : Str) : List.Perm (sorted_str s) s :=
  List.perm_insertionSort _ s

theorem norm_sorted_fix {isalpha : Char → Bool} {s : Str} (hs : isalpha '/' = false)
    (h : ∀ c ∈ s, keepChar isalpha c = true) :
    normalize_pronunciation isalpha (sorted_str s) = sorted_str s := by
  have hall : ∀ c ∈ sorted_str s, keepChar isalpha c = true :=
    fun c hc => h c ((sorted_str_perm s).mem_iff.mp hc)
  have hns : '/' ∉ sorted_str s := no_slash_of_all_keep hs hall
  unfold normalize_pronunciation
  rw [stripSlashes_eq_self hns]
  exact clean_eq_self_of_all_keep hall

theorem sorted_str_eq_nil_iff (s : Str) : sorted_str s = [] ↔ s = [] := by
  have hl := (sorted_str_perm s).length_eq
  constructor
  · intro h
    rw [h] at hl
    exact List.length_eq_zero.mp hl.symm
  · intro h
    subst h
    rfl

theorem pron_sorted_of_fix {isalpha : Char → Bool} {p : Pronunciation}
    (hs : isalpha '/' = false) (hp : normalize_pronunciation isalpha p.s = p.s) :
    p.sorted isalpha = ⟨sorted_str p.s⟩ := by
  unfold Pronunciation.sorted Pronunciation.ofRaw
  exact congrArg Pronunciation.mk (norm_sorted_fix hs (keepChar_of_norm_fix hp))

theorem mem_flatten_iff (d : IPADict) (w : PronouncedWord) :
    w ∈ flatten_to_pronounced_words d ↔
      ∃ e ∈ d, w.spelling = e.1 ∧ w.pronunciation ∈ e.2 := by
  induction d with
  | nil => simp [flatten_to_pronounced_words]
  | cons e rest ih =>
    obtain ⟨sp, ps⟩ := e
    simp only [flatten_to_pronounced_words, List.mem_append, List.mem_map, ih, List.mem_cons]
    constructor
    · rintro (⟨p, hp, rfl⟩ | ⟨e2, he2, h1, h2⟩)
      · exact ⟨(sp, ps), Or.inl rfl, rfl, hp⟩
      · exact ⟨e2, Or.inr he2, h1, h2⟩
    · rintro ⟨e2, (rfl | he2), h1, h2⟩
      · exact Or.inl ⟨w.pronunciation, h2, by cases w; simp_all⟩
      · exact Or.inr ⟨e2, he2, h1, h2⟩

theorem pron_fix_of_flatten {isalpha : Char → Bool} {d : IPADict}
    (hwf : IPADict.wellFormed isalpha d) {w : PronouncedWord}
    (hw : w ∈ flatten_to_pronounced_words d) :
    normalize_pronunciation isalpha w.pronunciation.s = w.pronunciation.s := by
  obtain ⟨e, he, _, hp⟩ := (mem_flatten_iff d w).mp hw
  exact (hwf e he).2 _ hp

theorem spell_fix_of_flatten {isalpha : Char → Bool} {d : IPADict}
    (hwf : IPADict.wellFormed isalpha d) {w : PronouncedWord}
    (hw : w ∈ flatten_to_pronounced_words d) :
    clean_str_to_alphanum isalpha w.spelling.s = w.spelling.s := by
  obtain ⟨e, he, hsp, _⟩ := (mem_flatten_iff d w).mp hw
  rw [hsp]
  exact (hwf e he).1

/-! ### Key-wrapping lemmas -/

theorem foldl_wrap_eq {α : Type} (isalpha : Char → Bool) (d : List (Str × List α))
    (m0 : List (Pronunciation × List α))
    (hdisj : ∀ kv ∈ d, Pronunciation.ofRaw isalpha kv.1 ∉ dictKeys m0)
    (hinj : (d.map (fun kv => Pronunciation.ofRaw isalpha kv.1)).Nodup) :
    d.foldl (fun m kv => dictSet m (Pronunciation.ofRaw isalpha kv.1) kv.2) m0 =
      m0 ++ d.map (fun kv => (Pronunciation.ofRaw isalpha kv.1, kv.2)) := by
  induction d generalizing m0 with
  | nil => simp
  | cons kv rest ih =>
    rw [List.foldl_cons,
      dictSet_eq_append m0 _ _ (hdisj kv (List.mem_cons_self kv rest))]
    simp only [List.map_cons, List.nodup_cons] at hinj
    rw [ih _ ?_ hinj.2]
    · simp
    · intro kv2 hkv2
      rw [dictKeys]
      simp only [List.map_append, List.mem_append]
      rintro (hmem | hmem)
      · exact hdisj kv2 (List.mem_cons_of_mem kv hkv2) (by simpa [dictKeys] using hmem)
      · simp only [List.map_cons, List.map_nil, List.mem_singleton] at hmem
        exact hinj.1 (hmem ▸ List.mem_map_of_mem (fun kv => Pronunciation.ofRaw isalpha kv.1) hkv2)

theorem wrapKeys_eq_map {α : Type} (isalpha : Char → Bool) (d : List (Str × List α))
    (hinj : (d.map (fun kv => Pronunciation.ofRaw isalpha kv.1)).Nodup) :
    wrapKeys isalpha d = d.map (fun kv => (Pronunciation.ofRaw isalpha kv.1, kv.2)) := by
  unfold wrapKeys
  rw [foldl_wrap_eq isalpha d [] (by simp [dictKeys]) hinj]
  simp

theorem dictLookup_map_wrap {α : Type} (isalpha : Char → Bool) (d : List (Str × List α))
    (q : Str) (hfix : ∀ kv ∈ d, normalize_pronunciation isalpha kv.1 = kv.1) :
    dictLookup (d.map (fun kv => (Pronunciation.ofRaw isalpha kv.1, kv.2)))
      (⟨q⟩ : Pronunciation) = dictLookup d q := by
  induction d with
  | nil => rfl
  | cons kv rest ih =>
    obtain ⟨k, v⟩ := kv
    have hk : Pronunciation.ofRaw isalpha k = ⟨k⟩ := by
      unfold Pronunciation.ofRaw
      exact congrArg Pronunciation.mk (hfix (k, v) (List.mem_cons_self _ _))
    have ih2 := ih (fun kv2 h2 => hfix kv2 (List.mem_cons_of_mem _ h2))
    by_cases h : k = q
    · subst h
      simp [dictLookup, hk]
    · simp [dictLookup, hk, h, Pronunciation.mk.injEq, ih2]

/-- The key of each entry of a `wrapKeys` result is the `Pronunciation`
wrapping of some string key of the argument. -/
theorem wrapKeys_key_origin {α : Type} (isalpha : Char → Bool) (d : List (Str × List α))
    (e : Pronunciation × List α) (he : e ∈ wrapKeys isalpha d) :
    ∃ k ∈ dictKeys d, e.1 = Pronunciation.ofRaw isalpha k := by
  suffices h : ∀ m0 : List (Pronunciation × List α),
      e ∈ d.foldl (fun m kv => dictSet m (Pronunciation.ofRaw isalpha kv.1) kv.2) m0 →
      e ∈ m0 ∨ ∃ k ∈ dictKeys d, e.1 = Pronunciation.ofRaw isalpha k by
    rcases h [] he with h1 | h1
    · simp at h1
    · exact h1
  clear he
  induction d with
  | nil => intro m0 h; exact Or.inl h
  | cons kv rest ih =>
    intro m0 h
    rw [List.foldl_cons] at h
    rcases ih _ h with h1 | h1
    · have hmem : ∀ (m : List (Pronunciation × List α)) (k : Pronunciation) (v : List α),
          e ∈ dictSet m k v → e ∈ m ∨ e.1 = k := by
        intro m k v hm
        induction m with
        | nil => simp [dictSet] at hm; exact Or.inr (by rw [hm])
        | cons e2 rest2 ih2 =>
          obtain ⟨k2, v2⟩ := e2
          by_cases hk : k2 = k
          · subst hk
            rw [dictSet, if_pos rfl] at hm
            rcases List.mem_cons.mp hm with h2 | h2
            · exact Or.inr (by rw [h2])
            · exact Or.inl (List.mem_cons_of_mem _ h2)
          · rw [dictSet, if_neg hk] at hm
            rcases List.mem_cons.mp hm with h2 | h2
            · exact Or.inl (h2 ▸ List.mem_cons_self _ _)
            · rcases ih2 h2 with h3 | h3
              · exact Or.inl (List.mem_cons_of_mem _ h3)
              · exact Or.inr h3
      rcases hmem m0 _ _ h1 with h2 | h2
      · exact Or.inl h2
      · exact Or.inr ⟨kv.1, by simp [dictKeys], h2⟩
    · obtain ⟨k, hk, hek⟩ := h1
      exact Or.inr ⟨k, by simp [dictKeys] at hk ⊢; exact Or.inr hk, hek⟩

/-! ### Last-write-wins lemmas for the report dictionaries -/

theorem getLast?_eq_of_all_eq {α : Type} (l : List α) (a : α) (hne : l ≠ [])
    (h : ∀ x ∈ l, x = a) : l.getLast? = some a := by
  induction l with
  | nil => exact absurd rfl hne
  | cons x xs ih =>
    cases xs with
    | nil => simp [h x (List.mem_cons_self _ _)]
    | cons y ys =>
      rw [List.getLast?_cons_cons]
      exact ih (by simp) (fun z hz => h z (List.mem_cons_of_mem _ hz))

theorem dictLookup_foldl_writes {α κ V : Type} [DecidableEq κ] (k : α → κ) (v : α → V)
    (c : α → Bool) (ws : List α) (m0 : List (κ × V)) (q : κ) :
    dictLookup (ws.foldl (fun m w => if c w then dictSet m (k w) (v w) else m) m0) q =
      ((ws.filter (fun w => c w && decide (k w = q))).getLast?).elim
        (dictLookup m0 q) (fun w => some (v w)) := by
  induction ws generalizing m0 with
  | nil => rfl
  | cons w ws ih =>
    rw [List.foldl_cons, ih]
    by_cases hc : c w = true
    · by_cases hk : k w = q
      · have hfil : List.filter (fun x => c x && decide (k x = q)) (w :: ws) =
            w :: List.filter (fun x => c x && decide (k x = q)) ws := by
          simp [List.filter_cons, hc, hk]
        rw [hfil, List.getLast?_cons]
        cases hl : (List.filter (fun x => c x && decide (k x = q)) ws).getLast? with
        | some y => simp [hl, Option.elim]
        | none =>
          simp only [hl, Option.getD_none, Option.elim]
          rw [if_pos hc, hk, dictLookup_dictSet_self]
      · have hfil : List.filter (fun x => c x && decide (k x = q)) (w :: ws) =
            List.filter (fun x => c x && decide (k x = q)) ws := by
          simp [List.filter_cons, hk]
        rw [hfil]
        cases hl : (List.filter (fun x => c x && decide (k x = q)) ws).getLast? with
        | some y => simp [hl, Option.elim]
        | none =>
          simp only [hl, Option.elim]
          rw [if_pos hc, dictLookup_dictSet_ne _ _ _ _ hk]
    · have hfil : List.filter (fun x => c x && decide (k x = q)) (w :: ws) =
          List.filter (fun x => c x && decide (k x = q)) ws := by
        simp [List.filter_cons, hc]
      rw [hfil]
      cases hl : (List.filter (fun x => c x && decide (k x = q)) ws).getLast? with
      | some y => simp [hl, Option.elim]
      | none =>
        simp only [hl, Option.elim]
        rw [if_neg hc]

theorem dictLookup_foldl_set {α κ V : Type} [DecidableEq κ] (k : α → κ) (v : α → V)
    (ws : List α) (m0 : List (κ × V)) (q : κ) :
    dictLookup (ws.foldl (fun m w => dictSet m (k w) (v w)) m0) q =
      ((ws.filter (fun w => decide (k w = q))).getLast?).elim
        (dictLookup m0 q) (fun w => some (v w)) := by
  have h := dictLookup_foldl_writes k v (fun _ => true) ws m0 q
  simpa using h

/-! ### Deduplication lemmas -/

theorem dedupGo_sublist (seen : List Pronunciation) (ws : List PronouncedWord) :
    List.Sublist (dedupGo seen ws) ws := by
  induction ws generalizing seen with
  | nil => simp [dedupGo]
  | cons w ws ih =>
    rw [dedupGo]
    by_cases h : w.pronunciation ∈ seen
    · rw [if_pos h]
      exact (ih seen).cons w
    · rw [if_neg h]
      exact (ih _).cons₂ w

theorem deduplicate_sublist (ws : List PronouncedWord) :
    List.Sublist (deduplicate_pronunciations ws) ws :=
  dedupGo_sublist [] ws

theorem dedupGo_not_seen (seen : List Pronunciation) (ws : List PronouncedWord) :
    ∀ x ∈ dedupGo seen ws, x.pronunciation ∉ seen := by
  induction ws generalizing seen with
  | nil => simp [dedupGo]
  | cons w ws ih =>
    rw [dedupGo]
    by_cases h : w.pronunciation ∈ seen
    · rw [if_pos h]; exact ih seen
    · rw [if_neg h]
      intro x hx
      rcases List.mem_cons.mp hx with h1 | h1
      · exact h1 ▸ h
      · exact fun hmem => ih _ x h1 (List.mem_cons_of_mem _ hmem)

theorem dedupGo_pairwise (seen : List Pronunciation) (ws : List PronouncedWord) :
    List.Pairwise (fun x y => x.pronunciation ≠ y.pronunciation) (dedupGo seen ws) := by
  induction ws generalizing seen with
  | nil => simp [dedupGo]
  | cons w ws ih =>
    rw [dedupGo]
    by_cases h : w.pronunciation ∈ seen
    · rw [if_pos h]; exact ih seen
    · rw [if_neg h]
      refine List.Pairwise.cons ?_ (ih _)
      intro y hy he
      exact dedupGo_not_seen _ _ y hy (he ▸ List.mem_cons_self _ _)

theorem dedup_pairwise (ws : List PronouncedWord) :
    List.Pairwise (fun x y => x.pronunciation ≠ y.pronunciation)
      (deduplicate_pronunciations ws) :=
  dedupGo_pairwise [] ws

theorem dedupGo_eq_keepFirst (seen : List Pronunciation) (ws : List PronouncedWord) :
    dedupGo seen ws = keepFirstByPron (ws.filter (fun v => decide (v.pronunciation ∉ seen))) := by
  induction ws generalizing seen with
  | nil => simp [dedupGo, keepFirstByPron]
  | cons w ws ih =>
    rw [dedupGo, List.filter_cons]
    by_cases h : w.pronunciation ∈ seen
    · rw [if_pos h, if_neg (by simp [h]), ih]
    · rw [if_neg h, if_pos (by simp [h]), keepFirstByPron, List.filter_filter, ih]
      congr 2
      apply List.filter_congr
      intro x _
      simp only [List.mem_cons, decide_not]
      by_cases h1 : x.pronunciation = w.pronunciation <;> by_cases h2 : x.pronunciation ∈ seen <;>
        simp [h1, h2]

theorem deduplicate_eq_keepFirst (ws : List PronouncedWord) :
    deduplicate_pronunciations ws = keepFirstByPron ws := by
  rw [deduplicate_pronunciations, dedupGo_eq_keepFirst]
  congr 1
  simp

/-! ### Composite-key injectivity -/

theorem append_colon_inj (s1 p1 s2 p2 : Str) (h1 : ':' ∉ s1) (h2 : ':' ∉ s2)
    (he : s1 ++ ':' :: p1 = s2 ++ ':' :: p2) : s1 = s2 ∧ p1 = p2 := by
  induction s1 generalizing s2 with
  | nil =>
    cases s2 with
    | nil => simpa using he
    | cons c t =>
      simp only [List.nil_append, List.cons_append, List.cons.injEq] at he
      exact absurd (by rw [← he.1]; exact List.mem_cons_self _ _ : ':' ∈ c :: t) h2
  | cons c t ih =>
    cases s2 with
    | nil =>
      simp only [List.nil_append, List.cons_append, List.cons.injEq] at he
      exact absurd (by rw [he.1]; exact List.mem_cons_self _ _ : ':' ∈ c :: t) h1
    | cons c2 t2 =>
      simp only [List.cons_append, List.cons.injEq] at he
      have ht := ih t2 (fun hm => h1 (List.mem_cons_of_mem _ hm))
        (fun hm => h2 (List.mem_cons_of_mem _ hm)) he.2
      exact ⟨by rw [he.1, ht.1], ht.2⟩

theorem no_colon_of_all_keep {isalpha : Char → Bool} {s : Str} (hc : isalpha ':' = false)
    (h : ∀ c ∈ s, keepChar isalpha c = true) : ':' ∉ s := by
  intro hm
  have := h _ hm
  simp [keepChar, hc] at this

theorem json_inj_of_flatten {isalpha : Char → Bool} {d : IPADict} (hc : isalpha ':' = false)
    (hwf : IPADict.wellFormed isalpha d) {w1 w2 : PronouncedWord}
    (h1 : w1 ∈ flatten_to_pronounced_words d) (h2 : w2 ∈ flatten_to_pronounced_words d)
    (he : w1.json_safe_str = w2.json_safe_str) : w1 = w2 := by
  have hs1 := no_colon_of_all_keep hc (keepChar_of_clean_fix (spell_fix_of_flatten hwf h1))
  have hs2 := no_colon_of_all_keep hc (keepChar_of_clean_fix (spell_fix_of_flatten hwf h2))
  have hinj := append_colon_inj _ _ _ _ hs1 hs2 he
  cases w1; cases w2
  simp only [PronouncedWord.mk.injEq]
  constructor
  · exact congrArg Spelling.mk hinj.1
  · exact congrArg Pronunciation.mk hinj.2

/-! ### Characterization of the Phonetic Anagram Dictionary -/

theorem base_keys_fix (isalpha : Char → Bool) (d : IPADict) (hs : isalpha '/' = false)
    (hwf : IPADict.wellFormed isalpha d) :
    ∀ k ∈ dictKeys (groupByKey (fun w => sorted_str w.pronunciation.s)
        (flatten_to_pronounced_words d) []),
      normalize_pronunciation isalpha k = k := by
  intro k hk
  rcases dictKeys_groupByKey_subset _ _ _ _ hk with h | ⟨w, hw, hfw⟩
  · simp [dictKeys_nil] at h
  · rw [← hfw]
    exact norm_sorted_fix hs (keepChar_of_norm_fix (pron_fix_of_flatten hwf hw))

theorem wrapped_keys_nodup {α : Type} (isalpha : Char → Bool) (base : List (Str × List α))
    (hfix : ∀ k ∈ dictKeys base, normalize_pronunciation isalpha k = k)
    (hnd : (dictKeys base).Nodup) :
    (base.map (fun kv => Pronunciation.ofRaw isalpha kv.1)).Nodup := by
  have he : base.map (fun kv => Pronunciation.ofRaw isalpha kv.1) =
      (dictKeys base).map (Pronunciation.ofRaw isalpha) := by
    rw [dictKeys, List.map_map]
    rfl
  rw [he]
  refine List.Nodup.map_on ?_ hnd
  intro x hx y hy hxy
  have hxy2 : normalize_pronunciation isalpha x = normalize_pronunciation isalpha y :=
    congrArg Pronunciation.s hxy
  rwa [hfix x hx, hfix y hy] at hxy2

theorem from_IPADict_eq_map (isalpha : Char → Bool) (d : IPADict) (hs : isalpha '/' = false)
    (hwf : IPADict.wellFormed isalpha d) :
    PhoneticAnagramDict.from_IPADict isalpha d =
      (groupByKey (fun w => sorted_str w.pronunciation.s)
        (flatten_to_pronounced_words d) []).map
        (fun kv => (Pronunciation.ofRaw isalpha kv.1, kv.2)) := by
  unfold PhoneticAnagramDict.from_IPADict find_anagrams
  exact wrapKeys_eq_map isalpha _
    (wrapped_keys_nodup isalpha _ (base_keys_fix isalpha d hs hwf)
      (dictKeys_groupByKey_nodup _ _ [] (by simp [dictKeys_nil])))

theorem getitemP_char (isalpha : Char → Bool) (d : IPADict) (hs : isalpha '/' = false)
    (hwf : IPADict.wellFormed isalpha d) (p : Pronunciation)
    (hp : normalize_pronunciation isalpha p.s = p.s) :
    PhoneticAnagramDict.getitemP isalpha (PhoneticAnagramDict.from_IPADict isalpha d) p =
      if (flatten_to_pronounced_words d).filter
          (fun v => decide (sorted_str v.pronunciation.s = sorted_str p.s)) = [] then none
      else some ((flatten_to_pronounced_words d).filter
          (fun v => decide (sorted_str v.pronunciation.s = sorted_str p.s))) := by
  unfold PhoneticAnagramDict.getitemP
  rw [from_IPADict_eq_map isalpha d hs hwf, pron_sorted_of_fix hs hp,
    dictLookup_map_wrap isalpha _ _ ?_, groupByKey_lookup_nil]
  intro kv hkv
  exact base_keys_fix isalpha d hs hwf kv.1
    (List.mem_map_of_mem Prod.fst hkv)

theorem getitemP_of_mem (isalpha : Char → Bool) (d : IPADict) (hs : isalpha '/' = false)
    (hwf : IPADict.wellFormed isalpha d) (w : PronouncedWord)
    (hw : w ∈ flatten_to_pronounced_words d) :
    PhoneticAnagramDict.getitemP isalpha (PhoneticAnagramDict.from_IPADict isalpha d)
      w.pronunciation = some (groupOf d w) := by
  rw [getitemP_char isalpha d hs hwf _ (pron_fix_of_flatten hwf hw)]
  rw [if_neg (List.ne_nil_of_mem (List.mem_filter.mpr ⟨hw, by simp⟩))]
  rfl

theorem mem_groupOf_self (d : IPADict) (w : PronouncedWord)
    (hw : w ∈ flatten_to_pronounced_words d) : w ∈ groupOf d w :=
  List.mem_filter.mpr ⟨hw, by simp⟩

/-! ### Report-loop characterization -/

/-- The value Report A records for word `w` (the joined composite keys
of the group found for `w`). -/
def valA (isalpha : Char → Bool) (pad : PhoneticAnagramDict) (w : PronouncedWord) : Str :=
  joinCS (((PhoneticAnagramDict.getitemP isalpha pad w.pronunciation).getD []).map
    PronouncedWord.json_safe_str)

/-- The deduplicated group found for word `w`. -/
def uniqOf (isalpha : Char → Bool) (pad : PhoneticAnagramDict) (w : PronouncedWord) :
    List PronouncedWord :=
  deduplicate_pronunciations ((PhoneticAnagramDict.getitemP isalpha pad w.pronunciation).getD [])

/-- The value Reports B and C record for word `w`. -/
def valB (isalpha : Char → Bool) (pad : PhoneticAnagramDict) (w : PronouncedWord) : Str :=
  joinCS ((uniqOf isalpha pad w).map PronouncedWord.json_safe_str)

/-- Whether Report C includes an entry for word `w`. -/
def condC (isalpha : Char → Bool) (pad : PhoneticAnagramDict) (w : PronouncedWord) : Bool :=
  decide (1 < (uniqOf isalpha pad w).length)

theorem runReports_spec (isalpha : Char → Bool) (pad : PhoneticAnagramDict)
    (ws : List PronouncedWord) (r : Reports)
    (hlk : ∀ w ∈ ws, (PhoneticAnagramDict.getitemP isalpha pad w.pronunciation).isSome = true) :
    runReports isalpha pad r ws = Except.ok
      { a := ws.foldl (fun m w => dictSet m w.json_safe_str (valA isalpha pad w)) r.a
        b := ws.foldl (fun m w => dictSet m w.json_safe_str (valB isalpha pad w)) r.b
        c := ws.foldl (fun m w =>
          if condC isalpha pad w then dictSet m w.json_safe_str (valB isalpha pad w) else m) r.c } := by
  induction ws generalizing r with
  | nil => rfl
  | cons w ws ih =>
    obtain ⟨anas, heq⟩ := Option.isSome_iff_exists.mp (hlk w (List.mem_cons_self _ _))
    have hA : (updateReports r w anas).a =
        dictSet r.a w.json_safe_str (valA isalpha pad w) := by
      simp [updateReports, valA, heq]
    have hB : (updateReports r w anas).b =
        dictSet r.b w.json_safe_str (valB isalpha pad w) := by
      simp [updateReports, valB, uniqOf, heq]
    have hC : (updateReports r w anas).c =
        if condC isalpha pad w then dictSet r.c w.json_safe_str (valB isalpha pad w)
        else r.c := by
      simp [updateReports, valB, condC, uniqOf, heq]
    simp only [runReports, heq]
    rw [ih _ (fun x hx => hlk x (List.mem_cons_of_mem _ hx))]
    simp only [List.foldl_cons, hA, hB, hC]

theorem buildReports_ok (isalpha : Char → Bool) (d : IPADict) (hs : isalpha '/' = false)
    (hwf : IPADict.wellFormed isalpha d) :
    buildReports isalpha d = Except.ok
      { a := (flatten_to_pronounced_words d).foldl (fun m w => dictSet m w.json_safe_str
          (valA isalpha (PhoneticAnagramDict.from_IPADict isalpha d) w)) []
        b := (flatten_to_pronounced_words d).foldl (fun m w => dictSet m w.json_safe_str
          (valB isalpha (PhoneticAnagramDict.from_IPADict isalpha d) w)) []
        c := (flatten_to_pronounced_words d).foldl (fun m w =>
          if condC isalpha (PhoneticAnagramDict.from_IPADict isalpha d) w
          then dictSet m w.json_safe_str
            (valB isalpha (PhoneticAnagramDict.from_IPADict isalpha d) w) else m) [] } := by
  unfold buildReports
  exact runReports_spec isalpha _ _ _
    (fun w hw => by rw [getitemP_of_mem isalpha d hs hwf w hw]; rfl)

theorem filter_json_getLast (isalpha : Char → Bool) (d : IPADict) (hc : isalpha ':' = false)
    (hwf : IPADict.wellFormed isalpha d) (w : PronouncedWord)
    (hw : w ∈ flatten_to_pronounced_words d) :
    ((flatten_to_pronounced_words d).filter
      (fun x => decide (x.json_safe_str = w.json_safe_str))).getLast? = some w := by
  apply getLast?_eq_of_all_eq
  · exact List.ne_nil_of_mem (List.mem_filter.mpr ⟨hw, by simp⟩)
  · intro x hx
    have hm := List.mem_filter.mp hx
    exact json_inj_of_flatten hc hwf hm.1 hw (by simpa using hm.2)

theorem valA_eq (isalpha : Char → Bool) (d : IPADict) (hs : isalpha '/' = false)
    (hwf : IPADict.wellFormed isalpha d) (w : PronouncedWord)
    (hw : w ∈ flatten_to_pronounced_words d) :
    valA isalpha (PhoneticAnagramDict.from_IPADict isalpha d) w =
      joinCS ((groupOf d w).map PronouncedWord.json_safe_str) := by
  unfold valA
  rw [getitemP_of_mem isalpha d hs hwf w hw]
  rfl

theorem uniqOf_eq (isalpha : Char → Bool) (d : IPADict) (hs : isalpha '/' = false)
    (hwf : IPADict.wellFormed isalpha d) (w : PronouncedWord)
    (hw : w ∈ flatten_to_pronounced_words d) :
    uniqOf isalpha (PhoneticAnagramDict.from_IPADict isalpha d) w =
      deduplicate_pronunciations (groupOf d w) := by
  unfold uniqOf
  rw [getitemP_of_mem isalpha d hs hwf w hw]
  rfl

theorem valB_eq (isalpha : Char → Bool) (d : IPADict) (hs : isalpha '/' = false)
    (hwf : IPADict.wellFormed isalpha d) (w : PronouncedWord)
    (hw : w ∈ flatten_to_pronounced_words d) :
    valB isalpha (PhoneticAnagramDict.from_IPADict isalpha d) w =
      joinCS ((deduplicate_pronunciations (groupOf d w)).map PronouncedWord.json_safe_str) := by
  unfold valB
  rw [uniqOf_eq isalpha d hs hwf w hw]

/-! ### Loaded-dictionary lemmas -/

theorem dictKeys_dictSet {κ V : Type} [DecidableEq κ] (m : List (κ × V)) (k : κ) (v : V) :
    dictKeys (dictSet m k v) = if k ∈ dictKeys m then dictKeys m else dictKeys m ++ [k] := by
  induction m with
  | nil => simp [dictSet, dictKeys_nil, dictKeys_cons]
  | cons e rest ih =>
    obtain ⟨kd, vd⟩ := e
    by_cases h : kd = k
    · subst h; simp [dictSet, dictKeys_cons]
    · by_cases hm : k ∈ dictKeys rest <;>
        simp [dictSet, h, Ne.symm h, hm, dictKeys_cons, ih, List.mem_cons]

theorem dictKeys_foldl_dictSet_nodup {α κ V : Type} [DecidableEq κ] (k : α → κ) (v : α → V)
    (ws : List α) (m0 : List (κ × V)) (h : (dictKeys m0).Nodup) :
    (dictKeys (ws.foldl (fun m w => dictSet m (k w) (v w)) m0)).Nodup := by
  induction ws generalizing m0 with
  | nil => exact h
  | cons w ws ih =>
    rw [List.foldl_cons]
    refine ih _ ?_
    rw [dictKeys_dictSet]
    by_cases hm : k w ∈ dictKeys m0
    · rwa [if_pos hm]
    · rw [if_neg hm]
      simpa [List.nodup_append] using ⟨h, hm⟩

theorem mem_iff_dictLookup {κ V : Type} [DecidableEq κ] (m : List (κ × V))
    (hnd : (dictKeys m).Nodup) (k : κ) (v : V) :
    (k, v) ∈ m ↔ dictLookup m k = some v := by
  induction m with
  | nil => simp [dictLookup]
  | cons e rest ih =>
    obtain ⟨k2, v2⟩ := e
    rw [dictKeys_cons, List.nodup_cons] at hnd
    by_cases h : k2 = k
    · subst h
      constructor
      · intro hm
        rcases List.mem_cons.mp hm with heq | hm2
        · rw [Prod.mk.injEq] at heq
          simp [dictLookup, heq.2]
        · exact absurd (List.mem_map_of_mem Prod.fst hm2) hnd.1
      · intro hlk
        simp [dictLookup] at hlk
        rw [← hlk]
        exact List.mem_cons_self _ _
    · simp only [dictLookup, if_neg h]
      rw [← ih hnd.2]
      constructor
      · intro hm
        rcases List.mem_cons.mp hm with heq | hm2
        · rw [Prod.mk.injEq] at heq
          exact absurd heq.1.symm h
        · exact hm2
      · exact List.mem_cons_of_mem _

theorem buildIPA_nodup (isalpha : Char → Bool) (entries : List (Str × Str)) :
    (dictKeys (buildIPA isalpha entries)).Nodup := by
  unfold buildIPA
  exact dictKeys_foldl_dictSet_nodup _ _ entries [] (by simp [dictKeys_nil])

theorem buildIPA_lookup (isalpha : Char → Bool) (entries : List (Str × Str)) (sp : Spelling) :
    dictLookup (buildIPA isalpha entries) sp =
      ((entries.filter (fun kv => decide (Spelling.ofRaw isalpha kv.1 = sp))).getLast?).map
        (fun kv => pronListOf isalpha kv.2) := by
  unfold buildIPA
  rw [dictLookup_foldl_set (fun kv => Spelling.ofRaw isalpha kv.1)
    (fun kv => pronListOf isalpha kv.2) entries [] sp]
  cases hl : (entries.filter (fun kv => decide (Spelling.ofRaw isalpha kv.1 = sp))).getLast? with
  | some kv => rfl
  | none => rfl

/-! ### Claim theorems -/

theorem clean_str_idem (isalpha : Char → Bool) (s : Str) :
    clean_str_to_alphanum isalpha (clean_str_to_alphanum isalpha s) =
      clean_str_to_alphanum isalpha s := by
  unfold clean_str_to_alphanum
  rw [List.filter_filter]
  exact List.filter_congr (fun c _ => by cases keepChar isalpha c <;> simp)

/-- Claim C8 (confirmed): normalization is idempotent — applying
`clean_str_to_alphanum` to an already-normalized string yields the same
value, for every string and every alphabetic classifier. -/
theorem claim_C8_normalization_idempotent (isalpha : Char → Bool) (s : Str) :
    clean_str_to_alphanum isalpha (clean_str_to_alphanum isalpha s) =
      clean_str_to_alphanum isalpha s :=
  clean_str_idem isalpha s

theorem groupPy_error_iff (okey : Option (PyObj → Str)) (items : List PyObj)
    (acc : List (Str × List PyObj)) :
    (∃ e, groupPy okey items acc = Except.error e) ↔
      okey = none ∧ ∃ w ∈ items, w.isStr = false := by
  induction items generalizing acc with
  | nil => simp [groupPy]
  | cons w ws ih =>
    cases okey with
    | some k => simp only [groupPy, ih]; simp
    | none =>
      cases w with
      | ofStr s =>
        simp only [groupPy, ih]
        simp [PyObj.isStr]
      | other n =>
        constructor
        · intro _
          exact ⟨rfl, PyObj.other n, List.mem_cons_self _ _, rfl⟩
        · intro _
          exact ⟨(), rfl⟩

/-- Claim C7 (confirmed): `find_anagrams` raises a `TypeError`-kind
error if and only if the key extractor is omitted and some item in the
input is not a string; with a key extractor, or with all-string items,
it never raises. -/
theorem claim_C7_typeerror_iff (isalpha : Char → Bool) (okey : Option (PyObj → Str))
    (items : List PyObj) :
    (∃ e, find_anagrams_py isalpha okey items = Except.error e) ↔
      okey = none ∧ ∃ w ∈ items, w.isStr = false := by
  rw [← groupPy_error_iff okey items []]
  unfold find_anagrams_py
  cases h : groupPy okey items [] with
  | ok g => simp [h, Except.map]
  | error e => simp [h, Except.map]

/-- The per-language value shape `IPADict.from_file` accepts: a
one-element array holding one object all of whose values are strings. -/
def goodLangShape (v : PyJson) : Prop :=
  ∃ entries es, v = PyJson.jlist [PyJson.jobj entries] ∧ asStrEntries entries = some es

/-- Claim C6 (confirmed): `IPADict.from_file` fails with the
`LookupError` kind exactly when the language key is absent, fails with
the `FormatError` kind exactly when the key is present but the
per-language value is not exactly one string-valued mapping object, and
returns normally exactly when the value has the expected shape. -/
theorem parseLang_ok_iff (isalpha : Char → Bool) (v : PyJson) :
    (∃ ipa, parseLangValue isalpha v = Except.ok ipa) ↔ goodLangShape v := by
  match v with
  | PyJson.jstr s =>
    constructor
    · rintro ⟨ipa, h⟩; cases h
    · rintro ⟨e2, es2, h, _⟩; cases h
  | PyJson.jobj o =>
    constructor
    · rintro ⟨ipa, h⟩; cases h
    · rintro ⟨e2, es2, h, _⟩; cases h
  | PyJson.jlist [] =>
    constructor
    · rintro ⟨ipa, h⟩; cases h
    · rintro ⟨e2, es2, h, _⟩; simp at h
  | PyJson.jlist (x :: y :: ys) =>
    constructor
    · rintro ⟨ipa, h⟩
      have hx : parseLangValue isalpha (PyJson.jlist (x :: y :: ys)) =
          Except.error LoadError.formatError := by
        cases x <;> rfl
      rw [hx] at h
      cases h
    · rintro ⟨e2, es2, h, _⟩; simp at h
  | PyJson.jlist [PyJson.jstr s] =>
    constructor
    · rintro ⟨ipa, h⟩; cases h
    · rintro ⟨e2, es2, h, _⟩; simp at h
  | PyJson.jlist [PyJson.jlist l2] =>
    constructor
    · rintro ⟨ipa, h⟩; cases h
    · rintro ⟨e2, es2, h, _⟩; simp at h
  | PyJson.jlist [PyJson.jobj entries] =>
    constructor
    · rintro ⟨ipa, h⟩
      cases he : asStrEntries entries with
      | some es => exact ⟨entries, es, rfl, he⟩
      | none =>
        have hx : parseLangValue isalpha (PyJson.jlist [PyJson.jobj entries]) =
            Except.error LoadError.formatError := by
          simp only [parseLangValue]
          rw [he]
        rw [hx] at h
        cases h
    · rintro ⟨e2, es2, h, hse⟩
      simp only [PyJson.jlist.injEq, List.cons.injEq, and_true, PyJson.jobj.injEq] at h
      rw [← h] at hse
      refine ⟨buildIPA isalpha es2, ?_⟩
      simp only [parseLangValue]
      rw [hse]

theorem parseLang_ok_or_format (isalpha : Char → Bool) (v : PyJson) :
    (∃ ipa, parseLangValue isalpha v = Except.ok ipa) ∨
      parseLangValue isalpha v = Except.error LoadError.formatError := by
  match v with
  | PyJson.jstr s => exact Or.inr rfl
  | PyJson.jobj o => exact Or.inr rfl
  | PyJson.jlist [] => exact Or.inr rfl
  | PyJson.jlist (x :: y :: ys) => cases x <;> exact Or.inr rfl
  | PyJson.jlist [PyJson.jstr s] => exact Or.inr rfl
  | PyJson.jlist [PyJson.jlist l2] => exact Or.inr rfl
  | PyJson.jlist [PyJson.jobj entries] =>
    cases he : asStrEntries entries with
    | some es =>
      refine Or.inl ⟨buildIPA isalpha es, ?_⟩
      simp only [parseLangValue]
      rw [he]
    | none =>
      refine Or.inr ?_
      simp only [parseLangValue]
      rw [he]

theorem parseLang_format_iff (isalpha : Char → Bool) (v : PyJson) :
    parseLangValue isalpha v = Except.error LoadError.formatError ↔ ¬ goodLangShape v := by
  rw [← parseLang_ok_iff isalpha v]
  constructor
  · intro h hok
    obtain ⟨ipa, hipa⟩ := hok
    rw [h] at hipa
    cases hipa
  · intro h
    rcases parseLang_ok_or_format isalpha v with hok | hfmt
    · exact absurd hok h
    · exact hfmt

theorem parseLang_ne_lookup (isalpha : Char → Bool) (v : PyJson) :
    parseLangValue isalpha v ≠ Except.error LoadError.lookupError := by
  rcases parseLang_ok_or_format isalpha v with ⟨ipa, hok⟩ | hfmt
  · rw [hok]; intro h; cases h
  · rw [hfmt]; intro h; cases h

/-- Claim C6 (confirmed): `IPADict.from_file` fails with the
`LookupError` kind exactly when the language key is absent, fails with
the `FormatError` kind exactly when the key is present but the
per-language value is not exactly one string-valued mapping object, and
returns normally exactly when the value has the expected shape. -/
theorem claim_C6_from_file_errors (isalpha : Char → Bool) (top : List (Str × PyJson))
    (language : Str) :
    (IPADict.from_file isalpha top language = Except.error LoadError.lookupError ↔
      dictLookup top language = none) ∧
    (IPADict.from_file isalpha top language = Except.error LoadError.formatError ↔
      ∃ v, dictLookup top language = some v ∧ ¬ goodLangShape v) ∧
    ((∃ ipa, IPADict.from_file isalpha top language = Except.ok ipa) ↔
      ∃ v, dictLookup top language = some v ∧ goodLangShape v) := by
  cases hl : dictLookup top language with
  | none =>
    have hv : IPADict.from_file isalpha top language = Except.error LoadError.lookupError := by
      unfold IPADict.from_file
      rw [hl]
    refine ⟨by simp [hv], ?_, ?_⟩
    · rw [hv]
      constructor
      · intro h; cases h
      · rintro ⟨v2, hv2, _⟩; cases hv2
    · rw [hv]
      constructor
      · rintro ⟨ipa, h⟩; cases h
      · rintro ⟨v2, hv2, _⟩; cases hv2
  | some v =>
    have hv : IPADict.from_file isalpha top language = parseLangValue isalpha v := by
      unfold IPADict.from_file
      rw [hl]
    rw [hv]
    refine ⟨?_, ?_, ?_⟩
    · constructor
      · intro h; exact absurd h (parseLang_ne_lookup isalpha v)
      · intro h; cases h
    · rw [parseLang_format_iff]
      constructor
      · intro h; exact ⟨v, rfl, h⟩
      · rintro ⟨v2, hv2, h⟩
        rw [Option.some.injEq] at hv2
        rwa [hv2]
    · rw [parseLang_ok_iff]
      constructor
      · intro h; exact ⟨v, rfl, h⟩
      · rintro ⟨v2, hv2, h⟩
        rw [Option.some.injEq] at hv2
        rwa [hv2]

/-- Claim C10 (confirmed): raw spellings that normalize to the same
`Spelling` collapse on load to a single entry holding the pronunciation
list of the last such raw spelling in input order, and the flattened
word list contains exactly the pronunciations of those surviving
entries — earlier collided raw spellings' pronunciations are gone. -/
theorem claim_C10_spelling_collision (isalpha : Char → Bool) (entries : List (Str × Str)) :
    (∀ sp : Spelling, dictLookup (buildIPA isalpha entries) sp =
      ((entries.filter (fun kv => decide (Spelling.ofRaw isalpha kv.1 = sp))).getLast?).map
        (fun kv => pronListOf isalpha kv.2)) ∧
    (∀ w : PronouncedWord, w ∈ flatten_to_pronounced_words (buildIPA isalpha entries) ↔
      ∃ kv, (entries.filter
          (fun kv2 => decide (Spelling.ofRaw isalpha kv2.1 = w.spelling))).getLast? = some kv ∧
        w.pronunciation ∈ pronListOf isalpha kv.2) := by
  constructor
  · exact buildIPA_lookup isalpha entries
  · intro w
    rw [mem_flatten_iff]
    constructor
    · rintro ⟨e, he, hsp, hp⟩
      have hlk : dictLookup (buildIPA isalpha entries) e.1 = some e.2 := by
        rw [← mem_iff_dictLookup _ (buildIPA_nodup isalpha entries)]
        exact he
      rw [buildIPA_lookup isalpha entries] at hlk
      cases hg : (entries.filter
          (fun kv2 => decide (Spelling.ofRaw isalpha kv2.1 = e.1))).getLast? with
      | none => rw [hg] at hlk; cases hlk
      | some kv =>
        rw [hg] at hlk
        simp only [Option.map] at hlk
        rw [Option.some.injEq] at hlk
        refine ⟨kv, ?_, ?_⟩
        · rw [← hsp] at hg
          exact hg
        · rw [hlk]
          exact hp
    · rintro ⟨kv, hg, hp⟩
      have hlk : dictLookup (buildIPA isalpha entries) w.spelling =
          some (pronListOf isalpha kv.2) := by
        rw [buildIPA_lookup isalpha entries, hg]
        rfl
      rw [← mem_iff_dictLookup _ (buildIPA_nodup isalpha entries)] at hlk
      exact ⟨(w.spelling, pronListOf isalpha kv.2), hlk, rfl, hp⟩

/-- Claim C5 counterexample: the generic builder does not return the
sorted-character key strings themselves — with a key extractor whose
sorted key is `"-a"`, the returned key is the `Pronunciation` wrapping
`"a"`, not the string `"-a"`. -/
theorem claim_C5_counterexample :
    find_anagrams Char.isAlpha (fun _ => ['a', '-']) [0] =
      [(⟨['a']⟩, [0])] ∧
    sorted_str ['a', '-'] = ['-', 'a'] ∧
    (⟨['a']⟩ : Pronunciation).s ≠ ['-', 'a'] := by
  refine ⟨?_, ?_, ?_⟩ <;> decide

/-- Claim C5 amended: the wrapping of each sorted key string as a
`Pronunciation` happens inside `find_anagrams` itself (every returned
key is the `Pronunciation` wrapping of the sorted key string of some
input item), and the `PhoneticAnagramDict` adapter passes the builder's
result through unchanged rather than re-wrapping keys. -/
theorem claim_C5_amended {α : Type} (isalpha : Char → Bool) (key : α → Str) (items : List α)
    (e : Pronunciation × List α) (he : e ∈ find_anagrams isalpha key items) :
    (∃ w ∈ items, e.1 = Pronunciation.ofRaw isalpha (sorted_str (key w))) ∧
    (∀ d : IPADict, PhoneticAnagramDict.from_IPADict isalpha d =
      find_anagrams isalpha (fun w => w.pronunciation.s) (flatten_to_pronounced_words d)) := by
  constructor
  · obtain ⟨k, hk, hek⟩ := wrapKeys_key_origin isalpha _ e he
    rcases dictKeys_groupByKey_subset _ _ _ _ hk with h | ⟨w, hw, hfw⟩
    · simp [dictKeys_nil] at h
    · exact ⟨w, hw, by rw [hek, ← hfw]⟩
  · intro d
    rfl

theorem claim_C5_amended_witness :
    ((⟨['a']⟩ : Pronunciation), [(['a'] : Str)]) ∈
        find_anagrams Char.isAlpha (fun w => w) [['a']] ∧
    (∃ w ∈ [(['a'] : Str)],
      ((⟨['a']⟩ : Pronunciation), [(['a'] : Str)]).1 =
        Pronunciation.ofRaw Char.isAlpha (sorted_str w)) :=
  ⟨by decide,
    (claim_C5_amended Char.isAlpha (fun w => w) [['a']]
      ((⟨['a']⟩ : Pronunciation), [(['a'] : Str)]) (by decide)).1⟩

/-- Claim C1 counterexample: grouping completeness fails in general —
on the string inputs `"-a"` and `"a"` with no key extractor, the two
distinct sorted keys `"-a"` and `"a"` collapse to the same
`Pronunciation` key, the later group overwrites the earlier one, and
the item `"-a"` is lost from the result. -/
theorem claim_C1_counterexample :
    find_anagrams_py Char.isAlpha none [PyObj.ofStr ['-', 'a'], PyObj.ofStr ['a']] =
      Except.ok [(⟨['a']⟩, [PyObj.ofStr ['a']])] ∧
    ¬ List.Perm (joinGroups [((⟨['a']⟩ : Pronunciation), [PyObj.ofStr ['a']])])
        [PyObj.ofStr ['-', 'a'], PyObj.ofStr ['a']] := by
  refine ⟨rfl, fun h => ?_⟩
  simpa [joinGroups] using h.length_eq

theorem joinGroups_map {κ κ2 α : Type} (g : κ → κ2) (d : List (κ × List α)) :
    joinGroups (d.map (fun kv => (g kv.1, kv.2))) = joinGroups d := by
  induction d with
  | nil => rfl
  | cons kv rest ih => simp [joinGroups, ih]

/-- Claim C1 amended: grouping completeness holds whenever each item's
sorted key string is left unchanged by `Pronunciation` normalization
(as is the case for the pipeline's already-normalized pronunciation
keys): then the concatenation of all group lists is a permutation of
the input items — no item lost, none duplicated.  In general an item
is lost when its sorted key string collapses with a distinct one under
normalization. -/
theorem claim_C1_amended {α : Type} (isalpha : Char → Bool) (key : α → Str) (items : List α)
    (hkeys : ∀ w ∈ items,
      normalize_pronunciation isalpha (sorted_str (key w)) = sorted_str (key w)) :
    List.Perm (joinGroups (find_anagrams isalpha key items)) items := by
  unfold find_anagrams
  have hfix : ∀ k ∈ dictKeys (groupByKey (fun w => sorted_str (key w)) items []),
      normalize_pronunciation isalpha k = k := by
    intro k hk
    rcases dictKeys_groupByKey_subset _ _ _ _ hk with h | ⟨w, hw, hfw⟩
    · simp [dictKeys_nil] at h
    · rw [← hfw]
      exact hkeys w hw
  have hnd := dictKeys_groupByKey_nodup (fun w => sorted_str (key w)) items []
    (by simp [dictKeys_nil])
  rw [wrapKeys_eq_map isalpha _ (wrapped_keys_nodup isalpha _ hfix hnd), joinGroups_map]
  simpa [joinGroups] using joinGroups_groupByKey (fun w => sorted_str (key w)) items []

theorem claim_C1_amended_witness :
    List.Perm
      (joinGroups (find_anagrams Char.isAlpha (fun w => w) [['a'], ['b'], ['a']]))
      [(['a'] : Str), ['b'], ['a']] :=
  claim_C1_amended Char.isAlpha (fun w => w) [['a'], ['b'], ['a']] (by decide)

/-- Claim C9 counterexample: a word whose spelling normalizes to the
empty string (raw spelling `"'"`) but whose pronunciation is `"x"` is
an empty-normalizing word, yet the index built from this input has no
group at all under the empty sorted key — the word is grouped by its
pronunciation, not under the empty key. -/
theorem claim_C9_counterexample :
    flatten_to_pronounced_words (buildIPA Char.isAlpha [([Char.ofNat 39], ['x'])]) =
      [⟨⟨[]⟩, ⟨['x']⟩⟩] ∧
    (⟨⟨[]⟩, ⟨['x']⟩⟩ : PronouncedWord).spelling.s = [] ∧
    dictLookup (PhoneticAnagramDict.from_IPADict Char.isAlpha
        (buildIPA Char.isAlpha [([Char.ofNat 39], ['x'])])) (⟨[]⟩ : Pronunciation) =
      none ∧
    dictLookup (PhoneticAnagramDict.from_IPADict Char.isAlpha
        (buildIPA Char.isAlpha [([Char.ofNat 39], ['x'])])) (⟨['x']⟩ : Pronunciation) =
      some [⟨⟨[]⟩, ⟨['x']⟩⟩] := by
  refine ⟨?_, ?_, ?_, ?_⟩ <;> decide

/-- Claim C9 amended: on every well-formed dictionary every pipeline
stage completes without error (value construction, flattening and
grouping are total; every lookup made by the report loop succeeds, so
report generation returns normally), and all words whose
*pronunciation* normalizes to the empty string end up together in the
single group looked up under the empty sorted key.  (A spelling that
normalizes empty does not place a word in the empty-key group, since
grouping is by pronunciation only.) -/
theorem claim_C9_amended (isalpha : Char → Bool) (d : IPADict) (hs : isalpha '/' = false)
    (hwf : IPADict.wellFormed isalpha d) :
    (∃ r, buildReports isalpha d = Except.ok r) ∧
    (∀ w ∈ flatten_to_pronounced_words d, w.pronunciation.s = [] →
      PhoneticAnagramDict.getitemP isalpha (PhoneticAnagramDict.from_IPADict isalpha d)
          w.pronunciation =
        some ((flatten_to_pronounced_words d).filter
          (fun v => decide (v.pronunciation.s = [])))) := by
  constructor
  · exact ⟨_, buildReports_ok isalpha d hs hwf⟩
  · intro w hw hpe
    rw [getitemP_of_mem isalpha d hs hwf w hw]
    unfold groupOf
    congr 1
    apply List.filter_congr
    intro x _
    rw [hpe]
    have h0 : sorted_str ([] : Str) = [] := rfl
    rw [h0, decide_eq_decide]
    exact sorted_str_eq_nil_iff _

theorem claim_C9_amended_witness :
    (∃ r, buildReports Char.isAlpha
        [(⟨['a']⟩, [(⟨[]⟩ : Pronunciation)]), (⟨['b']⟩, [⟨[]⟩, ⟨['x']⟩])] = Except.ok r) ∧
    (∀ w ∈ flatten_to_pronounced_words
        [(⟨['a']⟩, [(⟨[]⟩ : Pronunciation)]), (⟨['b']⟩, [⟨[]⟩, ⟨['x']⟩])],
      w.pronunciation.s = [] →
      PhoneticAnagramDict.getitemP Char.isAlpha (PhoneticAnagramDict.from_IPADict Char.isAlpha
          [(⟨['a']⟩, [(⟨[]⟩ : Pronunciation)]), (⟨['b']⟩, [⟨[]⟩, ⟨['x']⟩])])
          w.pronunciation =
        some ((flatten_to_pronounced_words
            [(⟨['a']⟩, [(⟨[]⟩ : Pronunciation)]), (⟨['b']⟩, [⟨[]⟩, ⟨['x']⟩])]).filter
          (fun v => decide (v.pronunciation.s = [])))) :=
  claim_C9_amended Char.isAlpha
    [(⟨['a']⟩, [(⟨[]⟩ : Pronunciation)]), (⟨['b']⟩, [⟨[]⟩, ⟨['x']⟩])]
    (by decide) (by decide)

theorem report_component_lookup (isalpha : Char → Bool) (d : IPADict)
    (hc : isalpha ':' = false) (hwf : IPADict.wellFormed isalpha d)
    (val : PronouncedWord → Str) (w : PronouncedWord)
    (hw : w ∈ flatten_to_pronounced_words d) :
    dictLookup ((flatten_to_pronounced_words d).foldl
      (fun m x => dictSet m x.json_safe_str (val x)) []) w.json_safe_str = some (val w) := by
  rw [dictLookup_foldl_set (fun x => x.json_safe_str) val _ [] _,
    filter_json_getLast isalpha d hc hwf w hw]
  rfl

/-- Claim C2 (confirmed): for every word obtained by flattening the
source dictionary, looking up its pronunciation in the phonetic anagram
dictionary succeeds (the query is sorted first) and the result contains
the word itself; consequently the word's composite key appears in the
value list of Report A's entry for the word. -/
theorem claim_C2_lookup_self (isalpha : Char → Bool) (d : IPADict)
    (hs : isalpha '/' = false) (hc : isalpha ':' = false)
    (hwf : IPADict.wellFormed isalpha d) (w : PronouncedWord)
    (hw : w ∈ flatten_to_pronounced_words d) :
    (∃ l, PhoneticAnagramDict.getitemP isalpha (PhoneticAnagramDict.from_IPADict isalpha d)
        w.pronunciation = some l ∧ w ∈ l) ∧
    (∃ r, buildReports isalpha d = Except.ok r ∧
      dictLookup r.a w.json_safe_str =
        some (joinCS ((groupOf d w).map PronouncedWord.json_safe_str)) ∧
      w.json_safe_str ∈ (groupOf d w).map PronouncedWord.json_safe_str) := by
  refine ⟨⟨groupOf d w, getitemP_of_mem isalpha d hs hwf w hw, mem_groupOf_self d w hw⟩,
    _, buildReports_ok isalpha d hs hwf, ?_,
    List.mem_map_of_mem _ (mem_groupOf_self d w hw)⟩
  have h := report_component_lookup isalpha d hc hwf
    (valA isalpha (PhoneticAnagramDict.from_IPADict isalpha d)) w hw
  rw [valA_eq isalpha d hs hwf w hw] at h
  exact h

theorem claim_C2_lookup_self_witness :
    (∃ l, PhoneticAnagramDict.getitemP Char.isAlpha (PhoneticAnagramDict.from_IPADict
        Char.isAlpha [(⟨['a']⟩, [(⟨['t', 'a', 'k']⟩ : Pronunciation)]),
          (⟨['b']⟩, [⟨['k', 'a', 't']⟩])])
        (⟨⟨['a']⟩, ⟨['t', 'a', 'k']⟩⟩ : PronouncedWord).pronunciation = some l ∧
      (⟨⟨['a']⟩, ⟨['t', 'a', 'k']⟩⟩ : PronouncedWord) ∈ l) ∧
    (∃ r, buildReports Char.isAlpha [(⟨['a']⟩, [(⟨['t', 'a', 'k']⟩ : Pronunciation)]),
        (⟨['b']⟩, [⟨['k', 'a', 't']⟩])] = Except.ok r ∧
      dictLookup r.a (⟨⟨['a']⟩, ⟨['t', 'a', 'k']⟩⟩ : PronouncedWord).json_safe_str =
        some (joinCS ((groupOf [(⟨['a']⟩, [(⟨['t', 'a', 'k']⟩ : Pronunciation)]),
          (⟨['b']⟩, [⟨['k', 'a', 't']⟩])] ⟨⟨['a']⟩, ⟨['t', 'a', 'k']⟩⟩).map
            PronouncedWord.json_safe_str)) ∧
      (⟨⟨['a']⟩, ⟨['t', 'a', 'k']⟩⟩ : PronouncedWord).json_safe_str ∈
        (groupOf [(⟨['a']⟩, [(⟨['t', 'a', 'k']⟩ : Pronunciation)]),
          (⟨['b']⟩, [⟨['k', 'a', 't']⟩])] ⟨⟨['a']⟩, ⟨['t', 'a', 'k']⟩⟩).map
            PronouncedWord.json_safe_str) :=
  claim_C2_lookup_self Char.isAlpha
    [(⟨['a']⟩, [(⟨['t', 'a', 'k']⟩ : Pronunciation)]), (⟨['b']⟩, [⟨['k', 'a', 't']⟩])]
    (by decide) (by decide) (by decide) ⟨⟨['a']⟩, ⟨['t', 'a', 'k']⟩⟩ (by decide)

/-- Claim C3 (confirmed): Report B's entry for a word is obtained from
the word's anagram group by the first-occurrence-per-pronunciation scan
(`deduplicate_pronunciations` equals the specification's keep-first
recursion), its member list is a sublist of the group (hence a subset,
by composite key, of Report A's entry for the word), and no two of its
members share a normalized pronunciation. -/
theorem claim_C3_reportB (isalpha : Char → Bool) (d : IPADict)
    (hs : isalpha '/' = false) (hc : isalpha ':' = false)
    (hwf : IPADict.wellFormed isalpha d) (w : PronouncedWord)
    (hw : w ∈ flatten_to_pronounced_words d) :
    ∃ r, buildReports isalpha d = Except.ok r ∧
      dictLookup r.a w.json_safe_str =
        some (joinCS ((groupOf d w).map PronouncedWord.json_safe_str)) ∧
      dictLookup r.b w.json_safe_str =
        some (joinCS ((deduplicate_pronunciations (groupOf d w)).map
          PronouncedWord.json_safe_str)) ∧
      deduplicate_pronunciations (groupOf d w) = keepFirstByPron (groupOf d w) ∧
      List.Sublist (deduplicate_pronunciations (groupOf d w)) (groupOf d w) ∧
      (∀ x ∈ deduplicate_pronunciations (groupOf d w),
        x.json_safe_str ∈ (groupOf d w).map PronouncedWord.json_safe_str) ∧
      List.Pairwise (fun x y => x.pronunciation ≠ y.pronunciation)
        (deduplicate_pronunciations (groupOf d w)) := by
  refine ⟨_, buildReports_ok isalpha d hs hwf, ?_, ?_, deduplicate_eq_keepFirst _,
    deduplicate_sublist _, ?_, dedup_pairwise _⟩
  · have h := report_component_lookup isalpha d hc hwf
      (valA isalpha (PhoneticAnagramDict.from_IPADict isalpha d)) w hw
    rw [valA_eq isalpha d hs hwf w hw] at h
    exact h
  · have h := report_component_lookup isalpha d hc hwf
      (valB isalpha (PhoneticAnagramDict.from_IPADict isalpha d)) w hw
    rw [valB_eq isalpha d hs hwf w hw] at h
    exact h
  · intro x hx
    exact List.mem_map_of_mem _ ((deduplicate_sublist (groupOf d w)).subset hx)

theorem claim_C3_reportB_witness :
    ∃ r, buildReports Char.isAlpha [(⟨['a']⟩, [(⟨['k', 'a', 't']⟩ : Pronunciation)]),
        (⟨['b']⟩, [⟨['k', 'a', 't']⟩])] = Except.ok r ∧
      dictLookup r.a (⟨⟨['a']⟩, ⟨['k', 'a', 't']⟩⟩ : PronouncedWord).json_safe_str =
        some (joinCS ((groupOf [(⟨['a']⟩, [(⟨['k', 'a', 't']⟩ : Pronunciation)]),
          (⟨['b']⟩, [⟨['k', 'a', 't']⟩])] ⟨⟨['a']⟩, ⟨['k', 'a', 't']⟩⟩).map
            PronouncedWord.json_safe_str)) ∧
      dictLookup r.b (⟨⟨['a']⟩, ⟨['k', 'a', 't']⟩⟩ : PronouncedWord).json_safe_str =
        some (joinCS ((deduplicate_pronunciations
          (groupOf [(⟨['a']⟩, [(⟨['k', 'a', 't']⟩ : Pronunciation)]),
            (⟨['b']⟩, [⟨['k', 'a', 't']⟩])] ⟨⟨['a']⟩, ⟨['k', 'a', 't']⟩⟩)).map
              PronouncedWord.json_safe_str)) ∧
      deduplicate_pronunciations (groupOf [(⟨['a']⟩, [(⟨['k', 'a', 't']⟩ : Pronunciation)]),
          (⟨['b']⟩, [⟨['k', 'a', 't']⟩])] ⟨⟨['a']⟩, ⟨['k', 'a', 't']⟩⟩) =
        keepFirstByPron (groupOf [(⟨['a']⟩, [(⟨['k', 'a', 't']⟩ : Pronunciation)]),
          (⟨['b']⟩, [⟨['k', 'a', 't']⟩])] ⟨⟨['a']⟩, ⟨['k', 'a', 't']⟩⟩) ∧
      List.Sublist (deduplicate_pronunciations
          (groupOf [(⟨['a']⟩, [(⟨['k', 'a', 't']⟩ : Pronunciation)]),
            (⟨['b']⟩, [⟨['k', 'a', 't']⟩])] ⟨⟨['a']⟩, ⟨['k', 'a', 't']⟩⟩))
        (groupOf [(⟨['a']⟩, [(⟨['k', 'a', 't']⟩ : Pronunciation)]),
          (⟨['b']⟩, [⟨['k', 'a', 't']⟩])] ⟨⟨['a']⟩, ⟨['k', 'a', 't']⟩⟩) ∧
      (∀ x ∈ deduplicate_pronunciations
          (groupOf [(⟨['a']⟩, [(⟨['k', 'a', 't']⟩ : Pronunciation)]),
            (⟨['b']⟩, [⟨['k', 'a', 't']⟩])] ⟨⟨['a']⟩, ⟨['k', 'a', 't']⟩⟩),
        x.json_safe_str ∈ (groupOf [(⟨['a']⟩, [(⟨['k', 'a', 't']⟩ : Pronunciation)]),
          (⟨['b']⟩, [⟨['k', 'a', 't']⟩])] ⟨⟨['a']⟩, ⟨['k', 'a', 't']⟩⟩).map
            PronouncedWord.json_safe_str) ∧
      List.Pairwise (fun x y => x.pronunciation ≠ y.pronunciation)
        (deduplicate_pronunciations (groupOf [(⟨['a']⟩, [(⟨['k', 'a', 't']⟩ : Pronunciation)]),
          (⟨['b']⟩, [⟨['k', 'a', 't']⟩])] ⟨⟨['a']⟩, ⟨['k', 'a', 't']⟩⟩)) :=
  claim_C3_reportB Char.isAlpha
    [(⟨['a']⟩, [(⟨['k', 'a', 't']⟩ : Pronunciation)]), (⟨['b']⟩, [⟨['k', 'a', 't']⟩])]
    (by decide) (by decide) (by decide) ⟨⟨['a']⟩, ⟨['k', 'a', 't']⟩⟩ (by decide)

theorem condC_iff (isalpha : Char → Bool) (d : IPADict) (hs : isalpha '/' = false)
    (hwf : IPADict.wellFormed isalpha d) (w : PronouncedWord)
    (hw : w ∈ flatten_to_pronounced_words d) :
    condC isalpha (PhoneticAnagramDict.from_IPADict isalpha d) w = true ↔
      1 < (deduplicate_pronunciations (groupOf d w)).length := by
  unfold condC
  rw [uniqOf_eq isalpha d hs hwf w hw, decide_eq_true_eq]

theorem reports_a_mk (A B C : List (Str × Str)) : Reports.a ⟨A, B, C⟩ = A := rfl

theorem reports_b_mk (A B C : List (Str × Str)) : Reports.b ⟨A, B, C⟩ = B := rfl

theorem reports_c_mk (A B C : List (Str × Str)) : Reports.c ⟨A, B, C⟩ = C := rfl

/-- Claim C4 (confirmed): Report C's key set is exactly Report B's key
set restricted to the entries whose deduplicated list has more than one
member, and on those keys Report C's value equals Report B's value. -/
theorem claim_C4_reportC (isalpha : Char → Bool) (d : IPADict)
    (hs : isalpha '/' = false) (hc : isalpha ':' = false)
    (hwf : IPADict.wellFormed isalpha d) :
    ∃ r, buildReports isalpha d = Except.ok r ∧
      ∀ q v, dictLookup r.c q = some v ↔
        (dictLookup r.b q = some v ∧
          ∃ w ∈ flatten_to_pronounced_words d, w.json_safe_str = q ∧
            1 < (deduplicate_pronunciations (groupOf d w)).length) := by
  refine ⟨_, buildReports_ok isalpha d hs hwf, ?_⟩
  intro q v
  rw [reports_c_mk, reports_b_mk]
  have hB2 : dictLookup ((flatten_to_pronounced_words d).foldl (fun m w => dictSet m
      w.json_safe_str (valB isalpha (PhoneticAnagramDict.from_IPADict isalpha d) w)) []) q =
      (((flatten_to_pronounced_words d).filter
          (fun w => decide (w.json_safe_str = q))).getLast?).elim
        (dictLookup ([] : List (Str × Str)) q)
        (fun w => some (valB isalpha (PhoneticAnagramDict.from_IPADict isalpha d) w)) :=
    dictLookup_foldl_set (fun w => w.json_safe_str)
      (fun w => valB isalpha (PhoneticAnagramDict.from_IPADict isalpha d) w)
      (flatten_to_pronounced_words d) [] q
  have hC2 : dictLookup ((flatten_to_pronounced_words d).foldl (fun m w =>
      if condC isalpha (PhoneticAnagramDict.from_IPADict isalpha d) w
      then dictSet m w.json_safe_str
        (valB isalpha (PhoneticAnagramDict.from_IPADict isalpha d) w) else m) []) q =
      (((flatten_to_pronounced_words d).filter
          (fun w => condC isalpha (PhoneticAnagramDict.from_IPADict isalpha d) w &&
            decide (w.json_safe_str = q))).getLast?).elim
        (dictLookup ([] : List (Str × Str)) q)
        (fun w => some (valB isalpha (PhoneticAnagramDict.from_IPADict isalpha d) w)) :=
    dictLookup_foldl_writes (fun w => w.json_safe_str)
      (fun w => valB isalpha (PhoneticAnagramDict.from_IPADict isalpha d) w)
      (fun w => condC isalpha (PhoneticAnagramDict.from_IPADict isalpha d) w)
      (flatten_to_pronounced_words d) [] q
  rw [hB2, hC2]
  by_cases hex : ∃ w ∈ flatten_to_pronounced_words d, w.json_safe_str = q
  · obtain ⟨w0, hw0, hj0⟩ := hex
    subst hj0
    have hgB : ((flatten_to_pronounced_words d).filter
        (fun w => decide (w.json_safe_str = w0.json_safe_str))).getLast? = some w0 :=
      filter_json_getLast isalpha d hc hwf w0 hw0
    rw [hgB]
    by_cases hcd : condC isalpha (PhoneticAnagramDict.from_IPADict isalpha d) w0 = true
    · have hfC_eq : (flatten_to_pronounced_words d).filter
          (fun w => condC isalpha (PhoneticAnagramDict.from_IPADict isalpha d) w &&
            decide (w.json_safe_str = w0.json_safe_str)) =
          (flatten_to_pronounced_words d).filter
            (fun w => decide (w.json_safe_str = w0.json_safe_str)) := by
        apply List.filter_congr
        intro x hx
        by_cases he : x.json_safe_str = w0.json_safe_str
        · have hxw : x = w0 := json_inj_of_flatten hc hwf hx hw0 he
          rw [hxw, hcd]
          simp
        · simp [he]
      rw [hfC_eq, hgB]
      constructor
      · intro h
        exact ⟨h, w0, hw0, rfl, (condC_iff isalpha d hs hwf w0 hw0).mp hcd⟩
      · intro h
        exact h.1
    · have hfC_nil : (flatten_to_pronounced_words d).filter
          (fun w => condC isalpha (PhoneticAnagramDict.from_IPADict isalpha d) w &&
            decide (w.json_safe_str = w0.json_safe_str)) = [] := by
        rw [List.filter_eq_nil_iff]
        intro x hx
        simp only [Bool.and_eq_true, decide_eq_true_eq, not_and]
        intro hcx he
        have hxw : x = w0 := json_inj_of_flatten hc hwf hx hw0 he
        rw [hxw] at hcx
        exact hcd hcx
      rw [hfC_nil]
      show (none : Option Str) = some v ↔
        (some (valB isalpha (PhoneticAnagramDict.from_IPADict isalpha d) w0) = some v ∧
          ∃ w ∈ flatten_to_pronounced_words d, w.json_safe_str = w0.json_safe_str ∧
            1 < (deduplicate_pronunciations (groupOf d w)).length)
      constructor
      · intro h
        cases h
      · rintro ⟨hbv, w1, hw1, hj1, hlen⟩
        have hw1w0 : w1 = w0 := json_inj_of_flatten hc hwf hw1 hw0 hj1
        rw [hw1w0] at hlen
        exact (hcd ((condC_iff isalpha d hs hwf w0 hw0).mpr hlen)).elim
  · have hfB_nil : (flatten_to_pronounced_words d).filter
        (fun w => decide (w.json_safe_str = q)) = [] := by
      rw [List.filter_eq_nil_iff]
      intro x hx
      simp only [decide_eq_true_eq]
      exact fun he => hex ⟨x, hx, he⟩
    have hfC_nil : (flatten_to_pronounced_words d).filter
        (fun w => condC isalpha (PhoneticAnagramDict.from_IPADict isalpha d) w &&
          decide (w.json_safe_str = q)) = [] := by
      rw [List.filter_eq_nil_iff]
      intro x hx
      simp only [Bool.and_eq_true, decide_eq_true_eq, not_and]
      exact fun _ he => hex ⟨x, hx, he⟩
    rw [hfB_nil, hfC_nil]
    show (none : Option Str) = some v ↔
      ((none : Option Str) = some v ∧
        ∃ w ∈ flatten_to_pronounced_words d, w.json_safe_str = q ∧
          1 < (deduplicate_pronunciations (groupOf d w)).length)
    constructor
    · intro h
      cases h
    · rintro ⟨hbv, _⟩
      cases hbv

theorem claim_C4_reportC_witness :
    ∃ r, buildReports Char.isAlpha [(⟨['a']⟩, [(⟨['k', 'a', 't']⟩ : Pronunciation)]),
        (⟨['b']⟩, [⟨['t', 'a', 'k']⟩])] = Except.ok r ∧
      ∀ q v, dictLookup r.c q = some v ↔
        (dictLookup r.b q = some v ∧
          ∃ w ∈ flatten_to_pronounced_words [(⟨['a']⟩, [(⟨['k', 'a', 't']⟩ : Pronunciation)]),
            (⟨['b']⟩, [⟨['t', 'a', 'k']⟩])], w.json_safe_str = q ∧
            1 < (deduplicate_pronunciations
              (groupOf [(⟨['a']⟩, [(⟨['k', 'a', 't']⟩ : Pronunciation)]),
                (⟨['b']⟩, [⟨['t', 'a', 'k']⟩])] w)).length) :=
  claim_C4_reportC Char.isAlpha
    [(⟨['a']⟩, [(⟨['k', 'a', 't']⟩ : Pronunciation)]), (⟨['b']⟩, [⟨['t', 'a', 'k']⟩])]
    (by decide) (by decide) (by decide)

/-! ### Every loaded dictionary is well-formed -/

theorem mem_dictSet {κ V : Type} [DecidableEq κ] (m : List (κ × V)) (k : κ) (v : V)
    (e : κ × V) (he : e ∈ dictSet m k v) : e ∈ m ∨ e = (k, v) := by
  induction m with
  | nil => simp [dictSet] at he; exact Or.inr he
  | cons e2 rest ih =>
    obtain ⟨k2, v2⟩ := e2
    by_cases h : k2 = k
    · subst h
      rw [dictSet, if_pos rfl] at he
      rcases List.mem_cons.mp he with h2 | h2
      · exact Or.inr h2
      · exact Or.inl (List.mem_cons_of_mem _ h2)
    · rw [dictSet, if_neg h] at he
      rcases List.mem_cons.mp he with h2 | h2
      · exact Or.inl (h2 ▸ List.mem_cons_self _ _)
      · rcases ih h2 with h3 | h3
        · exact Or.inl (List.mem_cons_of_mem _ h3)
        · exact Or.inr h3

theorem mem_foldl_dictSet {α κ V : Type} [DecidableEq κ] (k : α → κ) (v : α → V)
    (ws : List α) (m0 : List (κ × V)) (e : κ × V)
    (he : e ∈ ws.foldl (fun m w => dictSet m (k w) (v w)) m0) :
    e ∈ m0 ∨ ∃ w ∈ ws, e = (k w, v w) := by
  induction ws generalizing m0 with
  | nil => exact Or.inl he
  | cons w ws ih =>
    rw [List.foldl_cons] at he
    rcases ih _ he with h1 | ⟨w2, hw2, h2⟩
    · rcases mem_dictSet _ _ _ _ h1 with h2 | h2
      · exact Or.inl h2
      · exact Or.inr ⟨w, List.mem_cons_self _ _, h2⟩
    · exact Or.inr ⟨w2, List.mem_cons_of_mem _ hw2, h2⟩

theorem mem_dedupKeepFirst {α : Type} [DecidableEq α] (seen : List α) (l : List α) (x : α)
    (hx : x ∈ dedupKeepFirst seen l) : x ∈ l := by
  induction l generalizing seen with
  | nil => simp [dedupKeepFirst] at hx
  | cons y ys ih =>
    rw [dedupKeepFirst] at hx
    by_cases h : y ∈ seen
    · rw [if_pos h] at hx
      exact List.mem_cons_of_mem _ (ih _ hx)
    · rw [if_neg h] at hx
      rcases List.mem_cons.mp hx with h2 | h2
      · exact h2 ▸ List.mem_cons_self _ _
      · exact List.mem_cons_of_mem _ (ih _ h2)

theorem norm_fix_of_all_keep (isalpha : Char → Bool) (hs : isalpha '/' = false) (t : Str)
    (ht : ∀ c ∈ t, keepChar isalpha c = true) :
    normalize_pronunciation isalpha t = t := by
  unfold normalize_pronunciation
  rw [stripSlashes_eq_self (no_slash_of_all_keep hs ht)]
  exact clean_eq_self_of_all_keep ht

theorem norm_pron_idem (isalpha : Char → Bool) (hs : isalpha '/' = false) (s : Str) :
    normalize_pronunciation isalpha (normalize_pronunciation isalpha s) =
      normalize_pronunciation isalpha s :=
  norm_fix_of_all_keep isalpha hs _ (fun _ hc => (List.mem_filter.mp hc).2)

/-- Every dictionary produced by the loader is well-formed: its
spellings and pronunciations are fixed points of their normalizations
(assuming `/` is not classified alphabetic, as in Python). -/
theorem buildIPA_wellFormed (isalpha : Char → Bool) (hs : isalpha '/' = false)
    (entries : List (Str × Str)) : IPADict.wellFormed isalpha (buildIPA isalpha entries) := by
  intro e he
  unfold buildIPA at he
  rcases mem_foldl_dictSet _ _ _ _ _ he with h | ⟨kv, _, rfl⟩
  · simp at h
  · constructor
    · exact clean_str_idem isalpha kv.1
    · intro p hp
      have hp2 := mem_dedupKeepFirst _ _ _ hp
      obtain ⟨raw, _, hraw⟩ := List.mem_map.mp hp2
      rw [← hraw]
      exact norm_pron_idem isalpha hs raw

end Anaphones
